import Mathlib

/-!
Verification development for the Resume-Screener repository (src/app.py).

The Python source is shallowly embedded below.  Strings are modelled as
Lean `String`/`List Char`; the ASCII fragments of Python's `\s`, `\w`,
`str.lower`, `str.strip` are modelled explicitly (the inputs exercised by
the specification are ASCII).  `re.sub`, `re.findall` and the fixed
patterns used by the source are modelled by equivalent explicit scans,
and `json.loads` (a collaborator from the Python standard library, not
part of src/) is modelled from the spec as a strict recursive-descent
JSON parser; JSON numbers are modelled as integers (fractional numbers
are floating point and are outside the model; none of the claims
exercises them).  All recursions are structural so every definition
evaluates by kernel reduction.
-/

set_option maxHeartbeats 1000000
set_option maxRecDepth 8000

namespace ResumeScreener

/-- The character with code 123, written by code to satisfy source hygiene. -/
def lbrace : Char := Char.ofNat 123

/-- The character with code 125. -/
def rbrace : Char := Char.ofNat 125

/-- The backquote character, code 96. -/
def backquote : Char := Char.ofNat 96

/-- The single-quote character, code 39. -/
def squote : Char := Char.ofNat 39

/-- Python `\s` / `str.strip` whitespace (ASCII fragment):
space, tab, newline, carriage return, vertical tab, form feed. -/
def isSpaceCh (c : Char) : Bool :=
  c.toNat = 32 || c.toNat = 9 || c.toNat = 10 || c.toNat = 13 ||
  c.toNat = 11 || c.toNat = 12

/-- Python `\w` word characters (ASCII fragment): `[A-Za-z0-9_]`. -/
def isWordCh (c : Char) : Bool :=
  (97 ≤ c.toNat && c.toNat ≤ 122) || (65 ≤ c.toNat && c.toNat ≤ 90) ||
  (48 ≤ c.toNat && c.toNat ≤ 57) || c.toNat = 95

/-- Python `str.lower` (ASCII fragment): map `A`-`Z` to `a`-`z`. -/
def toLowerCh (c : Char) : Char :=
  if 65 ≤ c.toNat && c.toNat ≤ 90 then Char.ofNat (c.toNat + 32) else c

/-- ASCII decimal digit. -/
def isDigitCh (c : Char) : Bool := 48 ≤ c.toNat && c.toNat ≤ 57

/-- Python `str.lstrip` (drop leading whitespace). -/
def pyLStrip (cs : List Char) : List Char := cs.dropWhile isSpaceCh

/-- Python `str.strip`: drop leading and trailing whitespace. -/
def pyStrip (cs : List Char) : List Char :=
  ((cs.dropWhile isSpaceCh).reverse.dropWhile isSpaceCh).reverse

/-- `re.sub(r'\s+', ' ', ·)`: replace every maximal run of whitespace by a
single space.  The flag records whether the previous character was part of
a whitespace run (in which case further whitespace is absorbed). -/
def collapseWSAux : List Char → Bool → List Char
  | [], _ => []
  | c :: cs, inRun =>
    if isSpaceCh c then
      if inRun then collapseWSAux cs true else ' ' :: collapseWSAux cs true
    else c :: collapseWSAux cs false

/-- `re.sub(r'\s+', ' ', ·)` on a character list. -/
def collapseWS (cs : List Char) : List Char := collapseWSAux cs false

/-- The per-page cleaning step of `extract_resume_text`:
`re.sub(r'\s+', ' ', page_text).strip()`. -/
def cleanPage (page : String) : List Char := pyStrip (collapseWS page.data)

/-- `extract_resume_text` (src/app.py lines 29-42), on the ordered sequence
of per-page strings delivered by the PDF collaborator (`page.extract_text()
or ""`).  The loop appends each cleaned page plus a single space, and the
final result is stripped. -/
def extract_resume_text (pages : List String) : String :=
  String.mk (pyStrip (pages.foldl (fun acc p => acc ++ cleanPage p ++ [' ']) []))

/-- `STOPWORDS` (src/app.py lines 18-23).  The entry written `it` + `'` +
`s` in the source is assembled around `squote`. -/
def STOPWORDS : List String :=
  ["the", "in", "with", "and", "or", "for", "to", "of", "a", "an", "is", "on",
   "by", "as", "at", "from", "that", "be", "are", "was", "were", "which", "this",
   "it", "has", "have", "will", "can", "should", "into", "but", "such", "their",
   "up", "over", "about", "not", "it" ++ String.mk [squote] ++ "s", "so", "if",
   "no", "etc"]

/-- `re.findall(r'\b\w+\b', ·)`: the maximal runs of word characters, in
order.  `acc` is the current run, reversed. -/
def wordTokensAux : List Char → List Char → List String
  | [], acc => if acc.isEmpty then [] else [String.mk acc.reverse]
  | c :: cs, acc =>
    if isWordCh c then wordTokensAux cs (c :: acc)
    else if acc.isEmpty then wordTokensAux cs []
    else String.mk acc.reverse :: wordTokensAux cs []

/-- The maximal word-character runs of a character list. -/
def wordTokens (cs : List Char) : List String := wordTokensAux cs []

/-- `get_keywords` (src/app.py lines 126-130): case-fold, tokenize into
word runs, deduplicate (`set(...)`), and keep tokens that are not
stopwords and have length `> 2`.  Python's set iteration order is
arbitrary; the model uses the deduplicated token order (all downstream
uses are order-independent). -/
def get_keywords (job_description : String) : List String :=
  ((wordTokens (job_description.data.map toLowerCh)).dedup).filter
    (fun w => !STOPWORDS.contains w && w.length > 2)

/-- JSON values (`json.loads` result).  Numbers are modelled as integers;
see the file comment. -/
inductive Json where
  | null : Json
  | bool : Bool → Json
  | num : Int → Json
  | str : String → Json
  | arr : List Json → Json
  | obj : List (String × Json) → Json

/-- JSON syntactic whitespace accepted by `json.loads` between tokens:
space, tab, newline, carriage return. -/
def isJsonWs (c : Char) : Bool :=
  c.toNat = 32 || c.toNat = 9 || c.toNat = 10 || c.toNat = 13

/-- Skip JSON whitespace. -/
def skipWs (cs : List Char) : List Char := cs.dropWhile isJsonWs

/-- Decode one escape character of a JSON string literal (strict mode). -/
def escChar (c : Char) : Option Char :=
  if c = '"' then some '"'
  else if c = '\\' then some '\\'
  else if c = '/' then some '/'
  else if c = 'b' then some (Char.ofNat 8)
  else if c = 'f' then some (Char.ofNat 12)
  else if c = 'n' then some '\n'
  else if c = 'r' then some (Char.ofNat 13)
  else if c = 't' then some '\t'
  else none

/-- Hex digit value. -/
def hexVal (c : Char) : Option Nat :=
  if 48 ≤ c.toNat && c.toNat ≤ 57 then some (c.toNat - 48)
  else if 97 ≤ c.toNat && c.toNat ≤ 102 then some (c.toNat - 87)
  else if 65 ≤ c.toNat && c.toNat ≤ 70 then some (c.toNat - 55)
  else none

/-- Parse the body of a JSON string literal after the opening quote
(strict: unescaped control characters are rejected); `acc` is reversed. -/
def parseStrAux : List Char → List Char → Option (String × List Char)
  | _, [] => none
  | acc, c :: cs =>
    if c = '"' then some (String.mk acc.reverse, cs)
    else if c = '\\' then
      match cs with
      | [] => none
      | e :: cs' =>
        if e = 'u' then
          match cs' with
          | h1 :: h2 :: h3 :: h4 :: cs'' =>
            match hexVal h1, hexVal h2, hexVal h3, hexVal h4 with
            | some a, some b, some c3, some d =>
              parseStrAux (Char.ofNat (((a * 16 + b) * 16 + c3) * 16 + d) :: acc) cs''
            | _, _, _, _ => none
          | _ => none
        else
          match escChar e with
          | some d => parseStrAux (d :: acc) cs'
          | none => none
    else if c.toNat < 32 then none
    else parseStrAux (c :: acc) cs

/-- Parse a run of decimal digits with accumulator. -/
def parseNatAux : Nat → List Char → Nat × List Char
  | acc, [] => (acc, [])
  | acc, c :: cs =>
    if isDigitCh c then parseNatAux (acc * 10 + (c.toNat - 48)) cs
    else (acc, c :: cs)

/-- Parse an integer JSON number starting at a digit; rejects a following
fraction or exponent marker (fractional numbers are outside the model). -/
def parseNum (neg : Bool) : List Char → Option (Json × List Char)
  | [] => none
  | c :: cs =>
    if isDigitCh c then
      match parseNatAux (c.toNat - 48) cs with
      | (n, r) =>
        match r with
        | [] => some (Json.num (if neg then -(n : Int) else (n : Int)), [])
        | d :: _ =>
          if d = '.' || d = 'e' || d = 'E' then none
          else some (Json.num (if neg then -(n : Int) else (n : Int)), r)
    else none

/-- Check that `lit` is a prefix of the input and return the rest. -/
def expectLit : List Char → List Char → Option (List Char)
  | [], cs => some cs
  | _, [] => none
  | l :: ls, c :: cs => if c = l then expectLit ls cs else none

mutual

/-- Strict recursive-descent JSON value parser (the model of `json.loads`,
a standard-library collaborator; modelled from the spec's "strict JSON
parsing").  The fuel argument only forces termination; `jsonLoads` passes
more fuel than any input can consume. -/
def parseVal : Nat → List Char → Option (Json × List Char)
  | 0, _ => none
  | _ + 1, [] => none
  | fuel + 1, c :: rest =>
    if c = '"' then
      match parseStrAux [] rest with
      | some (s, r) => some (Json.str s, r)
      | none => none
    else if c = lbrace then
      match skipWs rest with
      | [] => none
      | d :: r1 =>
        if d = rbrace then some (Json.obj [], r1)
        else
          match parseMembers fuel (d :: r1) with
          | some (kvs, r2) => some (Json.obj kvs, r2)
          | none => none
    else if c = '[' then
      match skipWs rest with
      | [] => none
      | d :: r1 =>
        if d = ']' then some (Json.arr [], r1)
        else
          match parseElems fuel (d :: r1) with
          | some (xs, r2) => some (Json.arr xs, r2)
          | none => none
    else if c = 't' then
      match expectLit "rue".data rest with
      | some r => some (Json.bool true, r)
      | none => none
    else if c = 'f' then
      match expectLit "alse".data rest with
      | some r => some (Json.bool false, r)
      | none => none
    else if c = 'n' then
      match expectLit "ull".data rest with
      | some r => some (Json.null, r)
      | none => none
    else if c = '-' then parseNum true rest
    else if isDigitCh c then parseNum false (c :: rest)
    else none

/-- Parse the members of a JSON object after `{` (first member follows). -/
def parseMembers : Nat → List Char → Option (List (String × Json) × List Char)
  | 0, _ => none
  | _ + 1, [] => none
  | fuel + 1, c :: rest =>
    if c = '"' then
      match parseStrAux [] rest with
      | none => none
      | some (k, r1) =>
        match skipWs r1 with
        | [] => none
        | d :: r2 =>
          if d = ':' then
            match parseVal fuel (skipWs r2) with
            | none => none
            | some (v, r3) =>
              match skipWs r3 with
              | [] => none
              | e :: r4 =>
                if e = ',' then
                  match parseMembers fuel (skipWs r4) with
                  | some (kvs, r5) => some ((k, v) :: kvs, r5)
                  | none => none
                else if e = rbrace then some ([(k, v)], r4)
                else none
          else none
    else none

/-- Parse the elements of a JSON array after `[` (first element follows). -/
def parseElems : Nat → List Char → Option (List Json × List Char)
  | 0, _ => none
  | fuel + 1, cs =>
    match parseVal fuel cs with
    | none => none
    | some (v, r1) =>
      match skipWs r1 with
      | [] => none
      | d :: r2 =>
        if d = ',' then
          match parseElems fuel (skipWs r2) with
          | some (xs, r3) => some (v :: xs, r3)
          | none => none
        else if d = ']' then some ([v], r2)
        else none

end

/-- `json.loads`: parse one JSON value, allowing surrounding whitespace,
rejecting any trailing non-whitespace (raises `JSONDecodeError`, modelled
as `none`). -/
def jsonLoads (cs : List Char) : Option Json :=
  match parseVal (cs.length + 1) (skipWs cs) with
  | some (v, r) => if skipWs r = [] then some v else none
  | none => none

/-- The string of six backquotes that
`response_text.replace("``````", "")` removes (the literal six-character
sequence in the source; note it is not the usual three-backquote fence). -/
def sixBackquotes : List Char := List.replicate 6 backquote

/-- `·.replace("``````", "")`: delete every occurrence of the
six-backquote sequence, scanning left to right. -/
def stripFences : List Char → List Char
  | c1 :: c2 :: c3 :: c4 :: c5 :: c6 :: cs =>
    if c1 = backquote && c2 = backquote && c3 = backquote &&
       c4 = backquote && c5 = backquote && c6 = backquote then
      stripFences cs
    else c1 :: stripFences (c2 :: c3 :: c4 :: c5 :: c6 :: cs)
  | cs => cs

/-- The `re.search(r"\{.*\}", cleaned, re.DOTALL)` match: the span from
the first `{` to the last `}`, when the last `}` comes after the first
`{`; otherwise no match. -/
def braceSpan (cs : List Char) : Option (List Char) :=
  match cs.dropWhile (fun c => !(c = lbrace)) with
  | [] => none
  | l1 :: l2 =>
    match (l1 :: l2).reverse.dropWhile (fun c => !(c = rbrace)) with
    | [] => none
    | m1 :: m2 => some (m1 :: m2).reverse

/-- `extract_json_from_response` (src/app.py lines 45-60): strip the
six-backquote sequence, strip outer whitespace, locate the first-`{` to
last-`}` span, and parse it strictly; `None` (here `none`) both when no
span is found and when parsing fails. -/
def extract_json_from_response (response_text : String) : Option Json :=
  let cleaned := pyStrip (stripFences response_text.data)
  match braceSpan cleaned with
  | some span => jsonLoads span
  | none => none

/-- Python truthiness of a parsed JSON value (`if not analysis_result`). -/
def jsonTruthy : Json → Bool
  | Json.null => false
  | Json.bool b => b
  | Json.num n => n ≠ 0
  | Json.str s => s.length ≠ 0
  | Json.arr xs => !xs.isEmpty
  | Json.obj kvs => !kvs.isEmpty

/-- `get_gemini_analysis` (src/app.py lines 109-123), as a function of the
oracle's raw response text (the network call itself is the collaborator):
extract the JSON, and return `None` for any falsy result — which is taken
by the UI as the parse-failure case. -/
def get_gemini_analysis (response_text : String) : Option Json :=
  match extract_json_from_response response_text with
  | none => none
  | some j => if jsonTruthy j then some j else none

/-- Case-insensitive match of one keyword at the head of the text, with
the trailing `\b`: the keyword's characters must match (after
case-folding, as `re.IGNORECASE` does) and the following character must
not be a word character.  Returns the matched original-casing prefix and
the rest. -/
def matchKw : List Char → List Char → Option (List Char × List Char)
  | [], [] => some ([], [])
  | [], c :: cs => if isWordCh c then none else some ([], c :: cs)
  | _ :: _, [] => none
  | k :: ks, c :: cs =>
    if toLowerCh c = toLowerCh k then
      match matchKw ks cs with
      | some (m, r) => some (c :: m, r)
      | none => none
    else none

/-- Try the alternation `(k1|k2|...)` at the current position: the first
keyword that matches wins (matches of the keywords produced by
`get_keywords` at a fixed position coincide, so the alternation order is
irrelevant; empty keywords, which `get_keywords` never produces, are
skipped to keep the scan productive). -/
def findMatch : List String → List Char → Option (List Char × List Char)
  | [], _ => none
  | k :: ks, cs =>
    match matchKw k.data cs with
    | some (m, r) => if m.isEmpty then findMatch ks cs else some (m, r)
    | none => findMatch ks cs

/-- The single left-to-right scan of
`pattern.sub(...)` for `pattern = re.compile(r'\b(k1|k2|...)\b', re.IGNORECASE)`,
returning the segmentation of the input text: `(true, m)` is a matched
(replaced) span, `(false, [c])` a copied character.  The flag `b` records
whether the previous character was a word character (so the leading `\b`
fails and no match is attempted; for keywords made of word characters
this is exactly the regex behavior).  The fuel argument only forces
termination; `highlight_keywords` passes the text length, which the scan
can never exceed. -/
def hlScan (kws : List String) : Nat → List Char → Bool → List (Bool × List Char)
  | 0, _, _ => []
  | _ + 1, [], _ => []
  | fuel + 1, c :: cs, b =>
    if b then (false, [c]) :: hlScan kws fuel cs (isWordCh c)
    else
      match findMatch kws (c :: cs) with
      | some (m, r) => (true, m) :: hlScan kws fuel r true
      | none => (false, [c]) :: hlScan kws fuel cs (isWordCh c)

/-- The replacement markup around a match:
`<span style='background-color: #FFF59D; color: #000000;'>` ... `</span>`
(src/app.py line 144). -/
def openTag : List Char :=
  ("<span style=" ++ String.mk [squote] ++
   "background-color: #FFF59D; color: #000000;" ++ String.mk [squote] ++ ">").data

/-- The closing markup of a replacement. -/
def closeTag : List Char := "</span>".data

/-- Render one segment of the scan: matched spans are wrapped in the
markup with the original matched substring (`match.group(0)`) inside. -/
def renderSeg : Bool × List Char → List Char
  | (true, m) => openTag ++ m ++ closeTag
  | (false, m) => m

/-- Render the whole segmentation. -/
def renderSegs (segs : List (Bool × List Char)) : List Char :=
  (segs.map renderSeg).flatten

/-- The text part of a segmentation (what `pattern.sub` read). -/
def joinSnd (segs : List (Bool × List Char)) : List Char :=
  (segs.map Prod.snd).flatten

/-- `highlight_keywords` (src/app.py lines 133-147): extract keywords; if
none, return the text unchanged; otherwise replace every whole-word
case-insensitive keyword match by the markup-wrapped match in a single
scan (`pattern.sub`), never rescanning inserted markup. -/
def highlight_keywords (resume_text job_description : String) : String :=
  let keywords := get_keywords job_description
  if keywords.isEmpty then resume_text
  else
    String.mk (renderSegs (hlScan keywords resume_text.data.length resume_text.data false))

/-- Contact information record of an `AnalysisResult` (spec section 3). -/
structure ContactInfo where
  emails : List String
  phoneNumbers : List String
deriving DecidableEq

/-- The `AnalysisResult` record (spec section 3). -/
structure AnalysisResult where
  atsScore : Int
  missingKeywords : List String
  feedback : String
  extractedSkills : List String
  contactInfo : ContactInfo
deriving DecidableEq

/-- The all-default `AnalysisResult` (spec section 3 defaults). -/
def defaultAnalysisResult : AnalysisResult :=
  ⟨0, [], "", [], ⟨[], []⟩⟩

/-- Field lookup in a parsed JSON object. -/
def getField (kvs : List (String × Json)) (k : String) : Option Json :=
  match kvs.find? (fun p => p.1 = k) with
  | some p => some p.2
  | none => none

/-- Typed read of an integer. -/
def asInt : Json → Option Int
  | Json.num n => some n
  | _ => none

/-- Typed read of a string. -/
def asStr : Json → Option String
  | Json.str s => some s
  | _ => none

/-- Typed read of a list of strings. -/
def strsOf : List Json → Option (List String)
  | [] => some []
  | Json.str s :: t =>
    match strsOf t with
    | some ss => some (s :: ss)
    | none => none
  | _ => none

/-- Typed read of an array of strings. -/
def asStrList : Json → Option (List String)
  | Json.arr xs => strsOf xs
  | _ => none

/-- Read one field with the spec's default-on-missing,
fail-on-wrong-type semantics. -/
def fieldOr {α : Type} (kvs : List (String × Json)) (k : String) (dflt : α)
    (conv : Json → Option α) : Option α :=
  match getField kvs k with
  | none => some dflt
  | some v => conv v

/-- Modelled from the spec: step 5 of section 4.3, which is absent from
src/ (the source returns the raw parsed dict) — coerce a parsed JSON
object into an `AnalysisResult` with default-on-missing per field,
ignoring unexpected fields, and failing on a wrong-typed field. -/
def jsonToResult : Json → Option AnalysisResult
  | Json.obj kvs =>
    match fieldOr kvs "ats_score" 0 asInt with
    | none => none
    | some ats =>
      match fieldOr kvs "missing_keywords" [] asStrList with
      | none => none
      | some mks =>
        match fieldOr kvs "feedback" "" asStr with
        | none => none
        | some fb =>
          match fieldOr kvs "extracted_skills" [] asStrList with
          | none => none
          | some sks =>
            match fieldOr kvs "contact_info" (⟨[], []⟩ : ContactInfo)
                (fun j =>
                  match j with
                  | Json.obj ckvs =>
                    match fieldOr ckvs "emails" [] asStrList with
                    | none => none
                    | some es =>
                      match fieldOr ckvs "phone_numbers" [] asStrList with
                      | none => none
                      | some ph => some (⟨es, ph⟩ : ContactInfo)
                  | _ => none) with
            | none => none
            | some ci => some ⟨ats, mks, fb, sks, ci⟩
  | _ => none

/-- Modelled from the spec: the JSON tree of an `AnalysisResult` encoded
"as its JSON object" with the schema keys of spec section 6 (there is no
encoder in src/; the oracle produces the object). -/
def jsonOfResult (r : AnalysisResult) : Json :=
  Json.obj
    [("ats_score", Json.num r.atsScore),
     ("missing_keywords", Json.arr (r.missingKeywords.map Json.str)),
     ("feedback", Json.str r.feedback),
     ("extracted_skills", Json.arr (r.extractedSkills.map Json.str)),
     ("contact_info", Json.obj
        [("emails", Json.arr (r.contactInfo.emails.map Json.str)),
         ("phone_numbers", Json.arr (r.contactInfo.phoneNumbers.map Json.str))])]

/-- Decimal digit character of a value `< 10`. -/
def digitCh (n : Nat) : Char := Char.ofNat (48 + n)

/-- Canonical decimal digits of a natural number (correct whenever
`n < 10 ^ fuel`). -/
def natDigitsAux : Nat → Nat → List Char
  | 0, _ => []
  | f + 1, n =>
    if n < 10 then [digitCh n]
    else natDigitsAux f (n / 10) ++ [digitCh (n % 10)]

/-- Canonical decimal rendering of a natural number. -/
def encNat (n : Nat) : List Char := natDigitsAux (n + 1) n

/-- Modelled from the spec: JSON encoding of a string whose characters
need no escaping (quote, backslash and control characters are excluded
by `cleanStr`). -/
def encStr (s : String) : List Char := '"' :: s.data ++ ['"']

/-- The non-first elements of an encoded string array, each preceded by a
comma. -/
def encStrListRest : List String → List Char
  | [] => []
  | s :: ss => ',' :: encStr s ++ encStrListRest ss

/-- Modelled from the spec: JSON encoding of an array of strings. -/
def encStrList : List String → List Char
  | [] => ['[', ']']
  | s :: ss => '[' :: encStr s ++ encStrListRest ss ++ [']']

/-- Modelled from the spec: the compact JSON text of an `AnalysisResult`
(the shape of the oracle's reply the round-trip property quantifies over),
with the schema keys of spec section 6 in order. -/
def encodeAnalysisResult (r : AnalysisResult) : List Char :=
  lbrace ::
  '"' :: ("ats_score".data ++ '"' :: ':' ::
    (encNat r.atsScore.toNat ++ ',' ::
  '"' :: ("missing_keywords".data ++ '"' :: ':' ::
    (encStrList r.missingKeywords ++ ',' ::
  '"' :: ("feedback".data ++ '"' :: ':' ::
    (encStr r.feedback ++ ',' ::
  '"' :: ("extracted_skills".data ++ '"' :: ':' ::
    (encStrList r.extractedSkills ++ ',' ::
  '"' :: ("contact_info".data ++ '"' :: ':' ::
    (lbrace ::
     '"' :: ("emails".data ++ '"' :: ':' ::
       (encStrList r.contactInfo.emails ++ ',' ::
      '"' :: ("phone_numbers".data ++ '"' :: ':' ::
       (encStrList r.contactInfo.phoneNumbers ++ rbrace :: [rbrace]))))))))))))))

/-- A character needing no JSON string escaping. -/
def cleanCh (c : Char) : Bool :=
  !(c = '"') && !(c = '\\') && 32 ≤ c.toNat

/-- A string is clean when no character needs JSON escaping and none is a
backquote (so the fence-stripping step cannot corrupt it). -/
def cleanStr (s : String) : Bool :=
  s.data.all (fun c => !(c = '"') && !(c = '\\') && !(c = backquote) && 32 ≤ c.toNat)

/-- A valid `AnalysisResult` with clean strings: the score is an integer
percentage in `[0, 100]` (spec section 3) and every string field is
clean. -/
def cleanResult (r : AnalysisResult) : Prop :=
  0 ≤ r.atsScore ∧ r.atsScore ≤ 100 ∧
  r.missingKeywords.all cleanStr ∧ cleanStr r.feedback ∧
  r.extractedSkills.all cleanStr ∧
  r.contactInfo.emails.all cleanStr ∧ r.contactInfo.phoneNumbers.all cleanStr

/-- No six consecutive backquotes anywhere (so
`replace("``````", "")` is the identity). -/
def hasSixBackquotes : List Char → Bool
  | c1 :: c2 :: c3 :: c4 :: c5 :: c6 :: cs =>
    (c1 = backquote && c2 = backquote && c3 = backquote &&
     c4 = backquote && c5 = backquote && c6 = backquote) ||
    hasSixBackquotes (c2 :: c3 :: c4 :: c5 :: c6 :: cs)
  | _ => false

/-- Inner segment of `encodeAnalysisResult`: the `phone_numbers` member
followed by the two closing braces. -/
def encN2 (r : AnalysisResult) : List Char :=
  '"' :: ("phone_numbers".data ++ '"' :: ':' ::
    (encStrList r.contactInfo.phoneNumbers ++ rbrace :: [rbrace]))

/-- Inner segment of `encodeAnalysisResult`: the members of the
`contact_info` object. -/
def encN1 (r : AnalysisResult) : List Char :=
  '"' :: ("emails".data ++ '"' :: ':' ::
    (encStrList r.contactInfo.emails ++ ',' :: encN2 r))

/-- Segment of `encodeAnalysisResult` starting at the `contact_info`
key. -/
def encM5 (r : AnalysisResult) : List Char :=
  '"' :: ("contact_info".data ++ '"' :: ':' :: (lbrace :: encN1 r))

/-- Segment of `encodeAnalysisResult` starting at the `extracted_skills`
key. -/
def encM4 (r : AnalysisResult) : List Char :=
  '"' :: ("extracted_skills".data ++ '"' :: ':' ::
    (encStrList r.extractedSkills ++ ',' :: encM5 r))

/-- Segment of `encodeAnalysisResult` starting at the `feedback` key. -/
def encM3 (r : AnalysisResult) : List Char :=
  '"' :: ("feedback".data ++ '"' :: ':' :: (encStr r.feedback ++ ',' :: encM4 r))

/-- Segment of `encodeAnalysisResult` starting at the `missing_keywords`
key. -/
def encM2 (r : AnalysisResult) : List Char :=
  '"' :: ("missing_keywords".data ++ '"' :: ':' ::
    (encStrList r.missingKeywords ++ ',' :: encM3 r))

/-- The members of the encoded object: everything after the opening
brace. -/
def encM1 (r : AnalysisResult) : List Char :=
  '"' :: ("ats_score".data ++ '"' :: ':' ::
    (encNat r.atsScore.toNat ++ ',' :: encM2 r))

/-- Whole-word case-insensitive occurrence of a (lowercase) keyword:
a decomposition with non-word (or absent) neighbours. -/
def wholeWordOcc (k : String) (cs : List Char) : Prop :=
  ∃ pre occ post, cs = pre ++ occ ++ post ∧ occ.map toLowerCh = k.data ∧
    (∀ c, pre.getLast? = some c → isWordCh c = false) ∧
    (∀ c, post.head? = some c → isWordCh c = false)

/-- Executable check for `wholeWordOcc` (used to state absences
concretely). -/
def wholeWordOccB (k : String) (cs : List Char) : Bool :=
  (List.range (cs.length + 1)).any (fun i =>
    ((cs.drop i).take k.length).map toLowerCh = k.data &&
    (match (cs.take i).getLast? with
     | some c => !isWordCh c
     | none => true) &&
    (match (cs.drop (i + k.length)).head? with
     | some c => !isWordCh c
     | none => true))

/-- No two adjacent space characters anywhere in the list. -/
def noTwoSpaces : List Char → Bool
  | a :: b :: t => !(a = ' ' && b = ' ') && noTwoSpaces (b :: t)
  | _ => true

/-- Join character lists with a single space between consecutive
elements. -/
def joinSp : List (List Char) → List Char
  | [] => []
  | [l] => l
  | l :: rest => l ++ ' ' :: joinSp rest

/-! ### Character-level lemmas -/

theorem char_toNat_ofNat (n : Nat) (h : n < 55296) : (Char.ofNat n).toNat = n := by
  unfold Char.ofNat
  rw [dif_pos (Or.inl h)]
  simp [Char.ofNatAux, Char.toNat, UInt32.toNat, UInt32.ofNat']

theorem toLowerCh_toNat (c : Char) (h : 65 ≤ c.toNat ∧ c.toNat ≤ 90) :
    (toLowerCh c).toNat = c.toNat + 32 := by
  unfold toLowerCh
  rw [if_pos (by simp [h.1, h.2])]
  exact char_toNat_ofNat _ (by omega)

theorem toLowerCh_eq_self (c : Char) (h : ¬(65 ≤ c.toNat ∧ c.toNat ≤ 90)) :
    toLowerCh c = c := by
  unfold toLowerCh
  rw [if_neg (by simpa using h)]

theorem toLowerCh_idem (c : Char) : toLowerCh (toLowerCh c) = toLowerCh c := by
  by_cases h : 65 ≤ c.toNat ∧ c.toNat ≤ 90
  · have h2 := toLowerCh_toNat c h
    exact toLowerCh_eq_self _ (by omega)
  · rw [toLowerCh_eq_self c h, toLowerCh_eq_self c h]

theorem isWordCh_iff (c : Char) : isWordCh c = true ↔
    (97 ≤ c.toNat ∧ c.toNat ≤ 122) ∨ (65 ≤ c.toNat ∧ c.toNat ≤ 90) ∨
    (48 ≤ c.toNat ∧ c.toNat ≤ 57) ∨ c.toNat = 95 := by
  simp [isWordCh, Bool.or_eq_true, Bool.and_eq_true, decide_eq_true_eq, or_assoc]

theorem isWordCh_toLowerCh (c : Char) : isWordCh (toLowerCh c) = isWordCh c := by
  by_cases h : 65 ≤ c.toNat ∧ c.toNat ≤ 90
  · have h2 := toLowerCh_toNat c h
    have hc : isWordCh c = true := (isWordCh_iff c).mpr (Or.inr (Or.inl h))
    have hl : isWordCh (toLowerCh c) = true :=
      (isWordCh_iff _).mpr (Or.inl (by omega))
    rw [hc, hl]
  · rw [toLowerCh_eq_self c h]

theorem isWordCh_of_toLowerCh_eq {c d : Char} (h : toLowerCh c = toLowerCh d) :
    isWordCh c = isWordCh d := by
  rw [← isWordCh_toLowerCh c, ← isWordCh_toLowerCh d, h]

/-! ### C10: empty keyword set gives the identity -/

/-- C10: for every (resumeText, jobDescription) pair for which the
extracted KeywordSet is empty, `highlight_keywords` returns the resume
text exactly unchanged (identity, not an error). -/
theorem empty_keywords_identity (rt jd : String) (h : get_keywords jd = []) :
    highlight_keywords rt jd = rt := by
  unfold highlight_keywords
  rw [h]
  rfl

/-- Witness for `empty_keywords_identity` at a concrete stopword-only job
description. -/
theorem empty_keywords_identity_witness :
    get_keywords "a of the in" = [] ∧
      highlight_keywords "untouched resume text" "a of the in" = "untouched resume text" :=
  ⟨by decide, empty_keywords_identity "untouched resume text" "a of the in" (by decide)⟩

/-! ### C9: shape of the extracted keyword set -/

theorem wordTokensAux_props (cs : List Char) :
    ∀ (acc : List Char), (∀ c ∈ cs, toLowerCh c = c) →
    (∀ c ∈ acc, isWordCh c = true ∧ toLowerCh c = c) →
    ∀ k ∈ wordTokensAux cs acc, k.data ≠ [] ∧
      ∀ c ∈ k.data, isWordCh c = true ∧ toLowerCh c = c := by
  induction cs with
  | nil =>
    intro acc _ hacc k hk
    match acc with
    | [] => simp [wordTokensAux] at hk
    | a :: t =>
      simp only [wordTokensAux, List.isEmpty_cons, Bool.false_eq_true, if_neg,
        not_false_iff, List.mem_singleton] at hk
      subst hk
      refine ⟨by simp, fun c hc => ?_⟩
      simp only [String.data] at hc
      exact hacc c (List.mem_reverse.mp hc)
  | cons a cs ih =>
    intro acc hcs hacc k hk
    have hcs' : ∀ c ∈ cs, toLowerCh c = c := fun c hc => hcs c (List.mem_cons_of_mem _ hc)
    simp only [wordTokensAux] at hk
    by_cases hw : isWordCh a = true
    · rw [if_pos hw] at hk
      refine ih (a :: acc) hcs' (fun c hc => ?_) k hk
      rcases List.mem_cons.mp hc with rfl | hc
      · exact ⟨hw, hcs c (List.mem_cons_self _ _)⟩
      · exact hacc c hc
    · rw [if_neg hw] at hk
      have hnil : ∀ c ∈ ([] : List Char), isWordCh c = true ∧ toLowerCh c = c := by
        intro c hc; cases hc
      match hacc2 : acc with
      | [] =>
        simp only [List.isEmpty_nil, if_pos] at hk
        exact ih [] hcs' hnil k hk
      | b :: t =>
        simp only [List.isEmpty_cons, Bool.false_eq_true, if_neg, not_false_iff,
          List.mem_cons] at hk
        rcases hk with rfl | hk
        · refine ⟨by simp, fun c hc => ?_⟩
          simp only [String.data] at hc
          exact hacc c (List.mem_reverse.mp hc)
        · exact ih [] hcs' hnil k hk

theorem wordTokens_props {cs : List Char} (hcs : ∀ c ∈ cs, toLowerCh c = c)
    {k : String} (hk : k ∈ wordTokens cs) :
    k.data ≠ [] ∧ ∀ c ∈ k.data, isWordCh c = true ∧ toLowerCh c = c :=
  wordTokensAux_props cs [] hcs (by intro c hc; cases hc) k hk

theorem get_keywords_props {jd k : String} (hk : k ∈ get_keywords jd) :
    2 < k.length ∧ k ∉ STOPWORDS ∧ k.data ≠ [] ∧
      (∀ c ∈ k.data, isWordCh c = true ∧ toLowerCh c = c) ∧
      k ∈ wordTokens (jd.data.map toLowerCh) := by
  unfold get_keywords at hk
  have hmem := List.mem_filter.mp hk
  have htok : k ∈ wordTokens (jd.data.map toLowerCh) := List.mem_dedup.mp hmem.1
  have hpred := hmem.2
  simp only [Bool.and_eq_true, Bool.not_eq_true', decide_eq_true_eq] at hpred
  have hcontains : k ∉ STOPWORDS := by
    intro hin
    have : STOPWORDS.contains k = true := List.elem_eq_true_of_mem hin
    rw [this] at hpred
    exact absurd hpred.1 (by decide)
  have hlow : ∀ c ∈ jd.data.map toLowerCh, toLowerCh c = c := by
    intro c hc
    rcases List.mem_map.mp hc with ⟨d, _, rfl⟩
    exact toLowerCh_idem d
  have hshape := wordTokens_props hlow htok
  exact ⟨hpred.2, hcontains, hshape.1, hshape.2, htok⟩

/-- The keyword list handed to the highlighter: every keyword is nonempty
and made of word characters. -/
theorem get_keywords_word {jd : String} :
    ∀ k ∈ get_keywords jd, k.data ≠ [] ∧ ∀ c ∈ k.data, isWordCh c = true :=
  fun _k hk =>
    ⟨(get_keywords_props hk).2.2.1,
     fun c hc => ((get_keywords_props hk).2.2.2.1 c hc).1⟩

/-- A keyword's characters are stable under case-folding. -/
theorem get_keywords_lower {jd k : String} (hk : k ∈ get_keywords jd) :
    k.data.map toLowerCh = k.data :=
  List.map_congr_left (fun c hc => ((get_keywords_props hk).2.2.2.1 c hc).2)
    |>.trans (List.map_id k.data)

/-- C9: every member of the extracted KeywordSet is a lowercase maximal
run of word characters of the (case-folded) job description with length
`> 2` that is not a stopword, the result has no duplicates, and the empty
input yields the empty set rather than an error. -/
theorem keywords_are_filtered_word_tokens :
    (∀ jd : String, (get_keywords jd).Nodup ∧
      ∀ k ∈ get_keywords jd,
        2 < k.length ∧ k ∉ STOPWORDS ∧ k.data ≠ [] ∧
        (∀ c ∈ k.data, isWordCh c = true ∧ toLowerCh c = c) ∧
        k ∈ wordTokens (jd.data.map toLowerCh)) ∧
    get_keywords "" = [] :=
  ⟨fun _ => ⟨(List.nodup_dedup _).filter _, fun _ hk => get_keywords_props hk⟩,
    by decide⟩

/-- Witness for `keywords_are_filtered_word_tokens` at a concrete job
description. -/
theorem keywords_are_filtered_word_tokens_witness :
    ("python" ∈ get_keywords "Python developer") ∧
      (2 < "python".length ∧ "python" ∉ STOPWORDS ∧ "python".data ≠ [] ∧
        (∀ c ∈ "python".data, isWordCh c = true ∧ toLowerCh c = c) ∧
        "python" ∈ wordTokens ("Python developer".data.map toLowerCh)) :=
  ⟨by decide,
    (keywords_are_filtered_word_tokens.1 "Python developer").2 "python" (by decide)⟩

/-! ### C4: resume text normalization -/

theorem noTwoSpaces_cons (a : Char) (l : List Char) :
    noTwoSpaces (a :: l) = true ↔
      ((∀ b, l.head? = some b → ¬(a = ' ' ∧ b = ' ')) ∧ noTwoSpaces l = true) := by
  match l with
  | [] => simp [noTwoSpaces]
  | b :: t =>
    simp only [noTwoSpaces, Bool.and_eq_true, Bool.not_eq_true', List.head?_cons]
    constructor
    · rintro ⟨h1, h2⟩
      refine ⟨fun b' hb' => ?_, h2⟩
      cases hb'
      rintro ⟨rfl, rfl⟩
      simp at h1
    · rintro ⟨h1, h2⟩
      refine ⟨?_, h2⟩
      by_cases ha : a = ' ' ∧ b = ' '
      · exact absurd ha (h1 b rfl)
      · simp only [Bool.and_eq_false_iff]
        by_cases h3 : a = ' '
        · right
          simp only [decide_eq_false_iff_not]
          intro hb
          exact ha ⟨h3, hb⟩
        · left
          simp [h3]

theorem noTwoSpaces_tail {a : Char} {l : List Char}
    (h : noTwoSpaces (a :: l) = true) : noTwoSpaces l = true :=
  ((noTwoSpaces_cons a l).mp h).2

theorem noTwoSpaces_suffix {t l : List Char} (hs : t <:+ l)
    (h : noTwoSpaces l = true) : noTwoSpaces t = true := by
  induction l with
  | nil => rw [List.suffix_nil.mp hs]; rfl
  | cons a l ih =>
    rcases List.suffix_cons_iff.mp hs with rfl | hs
    · exact h
    · exact ih hs (noTwoSpaces_tail h)

theorem head?_of_leading {t l : List Char} {c : Char} (hp : t <+: l)
    (h : t.head? = some c) : l.head? = some c := by
  rcases hp with ⟨s, rfl⟩
  match t, h with
  | a :: t', h => cases h; rfl

theorem noTwoSpaces_prefix {t l : List Char} (hp : t <+: l)
    (h : noTwoSpaces l = true) : noTwoSpaces t = true := by
  induction t generalizing l with
  | nil => rfl
  | cons a t ih =>
    match l, hp with
    | _ :: l', hp =>
      rcases List.cons_prefix_cons.mp hp with ⟨rfl, hp'⟩
      rw [noTwoSpaces_cons]
      exact ⟨fun b hb => ((noTwoSpaces_cons a l').mp h).1 b (head?_of_leading hp' hb),
        ih hp' (noTwoSpaces_tail h)⟩

theorem noTwoSpaces_append (A B : List Char) (hA : noTwoSpaces A = true)
    (hB : noTwoSpaces B = true)
    (hj : ∀ a b, A.getLast? = some a → B.head? = some b → ¬(a = ' ' ∧ b = ' ')) :
    noTwoSpaces (A ++ B) = true := by
  induction A with
  | nil => exact hB
  | cons x A ih =>
    rw [List.cons_append, noTwoSpaces_cons]
    match A with
    | [] =>
      exact ⟨fun b hb => hj x b (by simp) hb, hB⟩
    | y :: A' =>
      have hA' := (noTwoSpaces_cons x (y :: A')).mp hA
      refine ⟨?_, ih hA'.2
        (fun a b ha hb => hj a b (by rw [List.getLast?_cons_cons]; exact ha) hb)⟩
      intro b hb
      rw [List.cons_append, List.head?_cons] at hb
      cases hb
      exact hA'.1 y rfl

theorem head?_dropWhile (p : Char → Bool) (l : List Char) :
    ∀ c, (l.dropWhile p).head? = some c → p c = false := by
  induction l with
  | nil => intro c hc; cases hc
  | cons a l ih =>
    intro c hc
    rw [List.dropWhile_cons] at hc
    by_cases hp : p a = true
    · rw [if_pos hp] at hc
      exact ih c hc
    · rw [if_neg hp] at hc
      cases hc
      exact Bool.not_eq_true _ |>.mp hp

theorem dropWhile_eq_self_of_head (p : Char → Bool) (l : List Char)
    (h : ∀ c, l.head? = some c → p c = false) : l.dropWhile p = l := by
  match l with
  | [] => rfl
  | a :: t => rw [List.dropWhile_cons, if_neg (by rw [h a rfl]; simp)]

theorem pyStrip_prefix_of_lstrip (l : List Char) :
    pyStrip l <+: l.dropWhile isSpaceCh := by
  unfold pyStrip
  have hs : (l.dropWhile isSpaceCh).reverse.dropWhile isSpaceCh <:+
      (l.dropWhile isSpaceCh).reverse := List.dropWhile_suffix isSpaceCh
  have := List.reverse_prefix.mpr hs
  rwa [List.reverse_reverse] at this

theorem mem_pyStrip {c : Char} {l : List Char} (h : c ∈ pyStrip l) : c ∈ l := by
  unfold pyStrip at h
  rw [List.mem_reverse] at h
  have h2 := (List.dropWhile_sublist isSpaceCh).mem h
  rw [List.mem_reverse] at h2
  exact (List.dropWhile_sublist isSpaceCh).mem h2

theorem noTwoSpaces_pyStrip {l : List Char} (h : noTwoSpaces l = true) :
    noTwoSpaces (pyStrip l) = true :=
  noTwoSpaces_prefix (pyStrip_prefix_of_lstrip l)
    (noTwoSpaces_suffix (List.dropWhile_suffix isSpaceCh) h)

theorem head?_pyStrip (l : List Char) :
    ∀ c, (pyStrip l).head? = some c → isSpaceCh c = false := by
  intro c hc
  exact head?_dropWhile isSpaceCh l c
    (head?_of_leading (pyStrip_prefix_of_lstrip l) hc)

theorem getLast?_pyStrip (l : List Char) :
    ∀ c, (pyStrip l).getLast? = some c → isSpaceCh c = false := by
  intro c hc
  unfold pyStrip at hc
  rw [List.getLast?_reverse] at hc
  exact head?_dropWhile isSpaceCh _ c hc

theorem collapseWSAux_space (l : List Char) :
    ∀ b, ∀ c ∈ collapseWSAux l b, isSpaceCh c = true → c = ' ' := by
  induction l with
  | nil => intro b c hc; cases hc
  | cons a l ih =>
    intro b c hc hsp
    unfold collapseWSAux at hc
    by_cases ha : isSpaceCh a = true
    · rw [if_pos ha] at hc
      by_cases hb : b
      · rw [if_pos hb] at hc
        exact ih true c hc hsp
      · rw [if_neg hb] at hc
        rcases List.mem_cons.mp hc with rfl | hc
        · rfl
        · exact ih true c hc hsp
    · rw [if_neg ha] at hc
      rcases List.mem_cons.mp hc with rfl | hc
      · exact absurd hsp (by simpa using ha)
      · exact ih false c hc hsp

theorem collapseWSAux_head_true (l : List Char) :
    ∀ c, (collapseWSAux l true).head? = some c → isSpaceCh c = false := by
  induction l with
  | nil => intro c hc; cases hc
  | cons a l ih =>
    intro c hc
    unfold collapseWSAux at hc
    by_cases ha : isSpaceCh a = true
    · rw [if_pos ha, if_pos rfl] at hc
      exact ih c hc
    · rw [if_neg ha] at hc
      cases hc
      simpa using ha

theorem collapseWSAux_noTwo (l : List Char) :
    ∀ b, noTwoSpaces (collapseWSAux l b) = true := by
  induction l with
  | nil => intro b; rfl
  | cons a l ih =>
    intro b
    unfold collapseWSAux
    by_cases ha : isSpaceCh a = true
    · rw [if_pos ha]
      by_cases hb : b
      · rw [if_pos hb]
        exact ih true
      · rw [if_neg hb, noTwoSpaces_cons]
        refine ⟨fun c hc hp => ?_, ih true⟩
        have := collapseWSAux_head_true l c hc
        rw [hp.2] at this
        exact absurd this (by decide)
    · rw [if_neg ha, noTwoSpaces_cons]
      refine ⟨fun c hc hp => ?_, ih false⟩
      rw [hp.1] at ha
      exact absurd (by decide : isSpaceCh ' ' = true) (by simpa using ha)

theorem cleanPage_space (p : String) :
    ∀ c ∈ cleanPage p, isSpaceCh c = true → c = ' ' := fun c hc =>
  collapseWSAux_space p.data false c (mem_pyStrip hc)

theorem cleanPage_noTwo (p : String) : noTwoSpaces (cleanPage p) = true :=
  noTwoSpaces_pyStrip (collapseWSAux_noTwo p.data false)

theorem cleanPage_head (p : String) :
    ∀ c, (cleanPage p).head? = some c → isSpaceCh c = false :=
  head?_pyStrip _

theorem cleanPage_last (p : String) :
    ∀ c, (cleanPage p).getLast? = some c → isSpaceCh c = false :=
  getLast?_pyStrip _

theorem head?_append_some {l : List Char} (t : List Char) {c : Char}
    (h : l.head? = some c) : (l ++ t).head? = some c := by
  cases l with
  | nil => cases h
  | cons a l' => cases h; rfl

theorem space_ne_of_not_space {c : Char} (h : isSpaceCh c = false) : c ≠ ' ' := by
  rintro rfl
  exact absurd h (by decide)

theorem joinSp_ne_nil {ls : List (List Char)} (h0 : ls ≠ [])
    (h : ∀ l ∈ ls, l ≠ []) : joinSp ls ≠ [] := by
  match ls with
  | [l] => exact h l (List.mem_singleton.mpr rfl)
  | l :: l2 :: rest =>
    show l ++ ' ' :: joinSp (l2 :: rest) ≠ []
    simp

theorem head?_joinSp_prop {ls : List (List Char)}
    (hne : ∀ l ∈ ls, l ≠ [])
    (hh : ∀ l ∈ ls, ∀ c, l.head? = some c → isSpaceCh c = false) :
    ∀ c, (joinSp ls).head? = some c → isSpaceCh c = false := by
  match ls with
  | [] => intro c hc; cases hc
  | [l] => exact hh l (List.mem_singleton.mpr rfl)
  | l :: l2 :: rest =>
    intro c hc
    have hl : l ≠ [] := hne l (List.mem_cons_self _ _)
    match l, hl, hc with
    | a :: t, _, hc =>
      have ha : (joinSp ((a :: t) :: l2 :: rest)).head? = some a := rfl
      rw [ha] at hc
      have hsp : isSpaceCh a = false := hh (a :: t) (List.mem_cons_self _ _) a rfl
      injection hc with hac
      rwa [hac] at hsp

theorem getLast?_joinSp_prop {ls : List (List Char)}
    (hne : ∀ l ∈ ls, l ≠ [])
    (hl : ∀ l ∈ ls, ∀ c, l.getLast? = some c → isSpaceCh c = false) :
    ∀ c, (joinSp ls).getLast? = some c → isSpaceCh c = false := by
  match ls with
  | [] => intro c hc; cases hc
  | [l] => exact hl l (List.mem_singleton.mpr rfl)
  | l :: l2 :: rest =>
    intro c hc
    have hrest : joinSp (l2 :: rest) ≠ [] :=
      joinSp_ne_nil (by simp) (fun x hx => hne x (List.mem_cons_of_mem _ hx))
    have he : joinSp (l :: l2 :: rest) = l ++ (' ' :: joinSp (l2 :: rest)) := rfl
    rw [he, List.getLast?_append_of_ne_nil _ (by simp)] at hc
    have he2 : (' ' :: joinSp (l2 :: rest)) = [' '] ++ joinSp (l2 :: rest) := rfl
    rw [he2, List.getLast?_append_of_ne_nil _ hrest] at hc
    exact getLast?_joinSp_prop
      (fun x hx => hne x (List.mem_cons_of_mem _ hx))
      (fun x hx => hl x (List.mem_cons_of_mem _ hx)) c hc

theorem mem_joinSp_space {ls : List (List Char)}
    (hm : ∀ l ∈ ls, ∀ c ∈ l, isSpaceCh c = true → c = ' ') :
    ∀ c ∈ joinSp ls, isSpaceCh c = true → c = ' ' := by
  match ls with
  | [] => intro c hc; cases hc
  | [l] => exact hm l (List.mem_singleton.mpr rfl)
  | l :: l2 :: rest =>
    intro c hc hsp
    have he : joinSp (l :: l2 :: rest) = l ++ (' ' :: joinSp (l2 :: rest)) := rfl
    rw [he, List.mem_append] at hc
    rcases hc with hc | hc
    · exact hm l (List.mem_cons_self _ _) c hc hsp
    · rcases List.mem_cons.mp hc with rfl | hc
      · rfl
      · exact mem_joinSp_space (fun x hx => hm x (List.mem_cons_of_mem _ hx)) c hc hsp

theorem noTwoSpaces_joinSp {ls : List (List Char)}
    (hne : ∀ l ∈ ls, l ≠ [])
    (hh : ∀ l ∈ ls, ∀ c, l.head? = some c → isSpaceCh c = false)
    (hl : ∀ l ∈ ls, ∀ c, l.getLast? = some c → isSpaceCh c = false)
    (hts : ∀ l ∈ ls, noTwoSpaces l = true) :
    noTwoSpaces (joinSp ls) = true := by
  match ls with
  | [] => rfl
  | [l] => exact hts l (List.mem_singleton.mpr rfl)
  | l :: l2 :: rest =>
    have htail : ∀ P : List Char → Prop,
        (∀ x ∈ l :: l2 :: rest, P x) → ∀ x ∈ l2 :: rest, P x :=
      fun P h x hx => h x (List.mem_cons_of_mem _ hx)
    show noTwoSpaces (l ++ (' ' :: joinSp (l2 :: rest))) = true
    refine noTwoSpaces_append _ _ (hts l (List.mem_cons_self _ _)) ?_ ?_
    · rw [noTwoSpaces_cons]
      refine ⟨fun b hb hp => ?_, noTwoSpaces_joinSp (htail _ hne) (htail _ hh)
        (htail _ hl) (htail _ hts)⟩
      exact space_ne_of_not_space
        (head?_joinSp_prop (htail _ hne) (htail _ hh) b hb) hp.2
    · intro a b ha _ hp
      exact space_ne_of_not_space (hl l (List.mem_cons_self _ _) a ha) hp.1

theorem foldl_append_form (f : String → List Char) :
    ∀ (l : List String) (a0 : List Char),
      l.foldl (fun acc p => acc ++ f p) a0 = a0 ++ (l.map f).flatten := by
  intro l
  induction l with
  | nil => intro a0; simp
  | cons p l ih =>
    intro a0
    rw [List.foldl_cons, ih, List.map_cons, List.flatten_cons, List.append_assoc]

theorem flatten_map_concat (ls : List (List Char)) (h0 : ls ≠ []) :
    (ls.map (fun l => l ++ [' '])).flatten = joinSp ls ++ [' '] := by
  match ls with
  | [l] => simp [joinSp]
  | l :: l2 :: rest =>
    have ih := flatten_map_concat (l2 :: rest) (by simp)
    rw [List.map_cons, List.flatten_cons, ih]
    show l ++ [' '] ++ (joinSp (l2 :: rest) ++ [' ']) =
      (l ++ ' ' :: joinSp (l2 :: rest)) ++ [' ']
    simp

theorem pyStrip_append_space (J : List Char) (hJ : J ≠ [])
    (hh : ∀ c, J.head? = some c → isSpaceCh c = false)
    (hl : ∀ c, J.getLast? = some c → isSpaceCh c = false) :
    pyStrip (J ++ [' ']) = J := by
  unfold pyStrip
  match J, hJ with
  | a :: t, _ =>
    have hd : ((a :: t) ++ [' ']).dropWhile isSpaceCh = (a :: t) ++ [' '] := by
      refine dropWhile_eq_self_of_head _ _ (fun c hc => ?_)
      cases hc
      exact hh a rfl
    rw [hd, List.reverse_append]
    show (([' '].reverse ++ (a :: t).reverse).dropWhile isSpaceCh).reverse = a :: t
    have h1 : [' '].reverse ++ (a :: t).reverse = ' ' :: (a :: t).reverse := rfl
    rw [h1, List.dropWhile_cons, if_pos (by decide)]
    have h2 : (a :: t).reverse.dropWhile isSpaceCh = (a :: t).reverse := by
      refine dropWhile_eq_self_of_head _ _ (fun c hc => ?_)
      rw [List.head?_reverse] at hc
      exact hl c hc
    rw [h2, List.reverse_reverse]

/-- C4 counterexample: with pages `["a", "", "b"]` (an empty interior
page), `extract_resume_text` yields `"a  b"`, which contains two
consecutive spaces — refuting the claim for page sequences that include
empty pages. -/
theorem empty_page_double_space_cex :
    extract_resume_text ["a", "", "b"] = "a  b" ∧
      noTwoSpaces (extract_resume_text ["a", "", "b"]).data = false := by
  exact ⟨rfl, rfl⟩

/-- C4 amended: for every page sequence in which each page's cleaned text
is nonempty, the produced resume text is the per-page cleaned texts
joined in original page order by single spaces; every whitespace
character in it is a plain space, no two consecutive spaces occur, and it
has no leading or trailing whitespace.  (With an empty-cleaning interior
page the source produces two consecutive spaces, as the counterexample
shows.) -/
theorem resume_text_normalized (pages : List String)
    (h : ∀ p ∈ pages, cleanPage p ≠ []) :
    (extract_resume_text pages).data = joinSp (pages.map cleanPage) ∧
    (∀ c ∈ (extract_resume_text pages).data, isSpaceCh c = true → c = ' ') ∧
    noTwoSpaces (extract_resume_text pages).data = true ∧
    (∀ c, (extract_resume_text pages).data.head? = some c → isSpaceCh c = false) ∧
    (∀ c, (extract_resume_text pages).data.getLast? = some c → isSpaceCh c = false) := by
  have hne : ∀ l ∈ pages.map cleanPage, l ≠ [] := by
    intro l hlm
    rcases List.mem_map.mp hlm with ⟨p, hp, rfl⟩
    exact h p hp
  have hh : ∀ l ∈ pages.map cleanPage, ∀ c, l.head? = some c → isSpaceCh c = false := by
    intro l hlm
    rcases List.mem_map.mp hlm with ⟨p, hp, rfl⟩
    exact cleanPage_head p
  have hlast : ∀ l ∈ pages.map cleanPage, ∀ c, l.getLast? = some c → isSpaceCh c = false := by
    intro l hlm
    rcases List.mem_map.mp hlm with ⟨p, hp, rfl⟩
    exact cleanPage_last p
  have hsp : ∀ l ∈ pages.map cleanPage, ∀ c ∈ l, isSpaceCh c = true → c = ' ' := by
    intro l hlm
    rcases List.mem_map.mp hlm with ⟨p, hp, rfl⟩
    exact cleanPage_space p
  have hnt : ∀ l ∈ pages.map cleanPage, noTwoSpaces l = true := by
    intro l hlm
    rcases List.mem_map.mp hlm with ⟨p, hp, rfl⟩
    exact cleanPage_noTwo p
  have hdata : (extract_resume_text pages).data = joinSp (pages.map cleanPage) := by
    show pyStrip (pages.foldl (fun acc p => acc ++ cleanPage p ++ [' ']) []) =
      joinSp (pages.map cleanPage)
    have hfl : pages.foldl (fun acc p => acc ++ cleanPage p ++ [' ']) [] =
        ((pages.map (fun p => cleanPage p ++ [' '])).flatten) := by
      have := foldl_append_form (fun p => cleanPage p ++ [' ']) pages []
      simpa [List.append_assoc] using this
    rw [hfl]
    match hp0 : pages with
    | [] => rfl
    | p :: ps =>
      have hmm : (p :: ps).map (fun q => cleanPage q ++ [' ']) =
          ((p :: ps).map cleanPage).map (fun l => l ++ [' ']) := by
        rw [List.map_map]
        rfl
      rw [hmm, flatten_map_concat _ (by simp)]
      exact pyStrip_append_space _
        (joinSp_ne_nil (by simp) hne) (head?_joinSp_prop hne hh)
        (getLast?_joinSp_prop hne hlast)
  refine ⟨hdata, ?_, ?_, ?_, ?_⟩ <;> rw [hdata]
  · exact mem_joinSp_space hsp
  · exact noTwoSpaces_joinSp hne hh hlast hnt
  · exact head?_joinSp_prop hne hh
  · exact getLast?_joinSp_prop hne hlast

/-- Witness for `resume_text_normalized` at a concrete two-page
document. -/
theorem resume_text_normalized_witness :
    (∀ p ∈ ["Hello  world", " x "], cleanPage p ≠ []) ∧
      (extract_resume_text ["Hello  world", " x "]).data =
        joinSp (["Hello  world", " x "].map cleanPage) ∧
      noTwoSpaces (extract_resume_text ["Hello  world", " x "]).data = true :=
  ⟨by decide,
    (resume_text_normalized ["Hello  world", " x "] (by decide)).1,
    (resume_text_normalized ["Hello  world", " x "] (by decide)).2.2.1⟩

/-! ### C1, C2, C3: response extraction outcomes -/

/-- C1 counterexample: on the oracle text whose extracted object binds
`ats_score` to the string `"high"`, `extract_json_from_response` does not
fail — it returns the parsed object with the wrong-typed field intact,
and `get_gemini_analysis` passes it through, refuting the claim that this
input is treated as a `MalformedJson` failure. -/
theorem wrong_typed_field_not_failed_cex :
    extract_json_from_response "\x7b\"ats_score\": \"high\"\x7d" =
      some (Json.obj [("ats_score", Json.str "high")]) ∧
    get_gemini_analysis "\x7b\"ats_score\": \"high\"\x7d" =
      some (Json.obj [("ats_score", Json.str "high")]) :=
  ⟨rfl, rfl⟩

/-- C1 amended: the source performs no type validation of fields.
Whenever the extracted substring parses as JSON, the parsed value is
returned as-is — wrong-typed fields included — and any truthy parsed
value flows through `get_gemini_analysis` unchanged; in particular the
text binding `ats_score` to the string `"high"` yields the object with
that string, not a failure. -/
theorem wrong_typed_field_passed_through :
    (∀ (raw : String) (j : Json), extract_json_from_response raw = some j →
      jsonTruthy j = true → get_gemini_analysis raw = some j) ∧
    extract_json_from_response "\x7b\"ats_score\": \"high\"\x7d" =
      some (Json.obj [("ats_score", Json.str "high")]) := by
  refine ⟨fun raw j h ht => ?_, rfl⟩
  unfold get_gemini_analysis
  rw [h]
  show (if jsonTruthy j = true then some j else none) = some j
  rw [if_pos ht]

/-- Witness for `wrong_typed_field_passed_through` at the wrong-typed
concrete input. -/
theorem wrong_typed_field_passed_through_witness :
    get_gemini_analysis "\x7b\"ats_score\": \"high\"\x7d" =
      some (Json.obj [("ats_score", Json.str "high")]) :=
  wrong_typed_field_passed_through.1 _ _ rfl rfl

/-- C2: the empty JSON object parses successfully (per the claim it
should yield the all-default AnalysisResult, as the spec-modelled
coercion indeed does), but `get_gemini_analysis` tests the parsed dict
for Python truthiness — `if not analysis_result` — so the falsy empty
dict is routed to the "could not be parsed as valid JSON" failure path
and the call returns `None`: a code bug relative to the claimed
default-on-missing tolerance. -/
theorem empty_object_dropped_by_truthiness :
    extract_json_from_response "\x7b\x7d" = some (Json.obj []) ∧
    get_gemini_analysis "\x7b\x7d" = none ∧
    jsonToResult (Json.obj []) = some defaultAnalysisResult :=
  ⟨rfl, rfl, rfl⟩

/-- C3 counterexample: text with no locatable JSON object and text whose
extracted substring fails strict parsing produce the very same result
(`none`, Python `None`) — no typed `NoJsonFound` / `MalformedJson`
distinction and no carried substring — so the two failure kinds are not
distinguishable by the caller, refuting the claim. -/
theorem failure_kinds_indistinguishable_cex :
    extract_json_from_response "there is no json here" = none ∧
    extract_json_from_response "\x7b,\x7d" = none ∧
    get_gemini_analysis "there is no json here" =
      get_gemini_analysis "\x7b,\x7d" :=
  ⟨rfl, rfl, rfl⟩

/-- C3 amended: `extract_json_from_response` returns the single
undifferentiated result `None` exactly when either no first-`{`-to-last-
`}` span exists or the extracted span fails strict JSON parsing; the two
failure kinds are collapsed and no diagnostic substring is carried (the
caller shows one generic message with the truncated raw response for
both). -/
theorem extraction_failures_collapse_to_none (t : String) :
    extract_json_from_response t = none ↔
      braceSpan (pyStrip (stripFences t.data)) = none ∨
      (∃ s, braceSpan (pyStrip (stripFences t.data)) = some s ∧ jsonLoads s = none) := by
  unfold extract_json_from_response
  match h : braceSpan (pyStrip (stripFences t.data)) with
  | none => simp [h]
  | some s =>
    simp only [h, Option.some.injEq, reduceCtorEq, false_or]
    constructor
    · intro hl
      exact ⟨s, rfl, hl⟩
    · rintro ⟨s', hs', hl⟩
      cases hs'
      exact hl

/-- Witness for `extraction_failures_collapse_to_none`: the
characterization evaluated at a malformed-span input. -/
theorem extraction_failures_collapse_witness :
    extract_json_from_response "\x7bbad\x7d" = none :=
  (extraction_failures_collapse_to_none "\x7bbad\x7d").mpr
    (Or.inr ⟨"\x7bbad\x7d".data, rfl, rfl⟩)

/-! ### Highlighter scan lemmas -/

theorem map_lower_word_transfer :
    ∀ {A B : List Char}, A.map toLowerCh = B.map toLowerCh →
      (∀ c ∈ B, isWordCh c = true) → ∀ c ∈ A, isWordCh c = true := by
  intro A
  induction A with
  | nil => intro B _ _ c hc; cases hc
  | cons a A ih =>
    intro B hmap hB c hc
    match B, hmap with
    | b :: B', hmap =>
      rw [List.map_cons, List.map_cons] at hmap
      injection hmap with h1 h2
      rcases List.mem_cons.mp hc with rfl | hc
      · rw [isWordCh_of_toLowerCh_eq h1]
        exact hB b (List.mem_cons_self _ _)
      · exact ih h2 (fun d hd => hB d (List.mem_cons_of_mem _ hd)) c hc

theorem matchKw_spec :
    ∀ (k cs m r : List Char), matchKw k cs = some (m, r) →
      cs = m ++ r ∧ m.length = k.length ∧ m.map toLowerCh = k.map toLowerCh ∧
      (∀ c, r.head? = some c → isWordCh c = false) := by
  intro k
  induction k with
  | nil =>
    intro cs m r h
    match cs, h with
    | [], h =>
      cases h
      exact ⟨rfl, rfl, rfl, fun c hc => by cases hc⟩
    | c :: cs', h =>
      unfold matchKw at h
      by_cases hw : isWordCh c = true
      · rw [if_pos hw] at h; cases h
      · rw [if_neg hw] at h
        cases h
        refine ⟨rfl, rfl, rfl, fun d hd => ?_⟩
        cases hd
        simpa using hw
  | cons kc ks ih =>
    intro cs m r h
    match cs, h with
    | c :: cs', h =>
      unfold matchKw at h
      by_cases he : toLowerCh c = toLowerCh kc
      · rw [if_pos he] at h
        match h2 : matchKw ks cs' with
        | some (m', r') =>
          rw [h2] at h
          have h' : some (c :: m', r') = some (m, r) := h
          injection h' with h3
          injection h3 with h4 h5
          subst h4
          subst h5
          rcases ih cs' m' r' h2 with ⟨ha, hb, hc2, hd⟩
          refine ⟨by rw [ha]; rfl, by simp [hb], ?_, hd⟩
          rw [List.map_cons, List.map_cons, he, hc2]
        | none =>
          rw [h2] at h
          exact absurd h (by simp)
      · rw [if_neg he] at h; cases h

theorem matchKw_complete :
    ∀ (k occ post : List Char), occ.map toLowerCh = k.map toLowerCh →
      (∀ c, post.head? = some c → isWordCh c = false) →
      matchKw k (occ ++ post) = some (occ, post) := by
  intro k
  induction k with
  | nil =>
    intro occ post hmap hpost
    match occ, hmap with
    | [], _ =>
      match post with
      | [] => rfl
      | p :: post' =>
        show matchKw [] (p :: post') = some ([], p :: post')
        unfold matchKw
        rw [if_neg (by rw [hpost p rfl]; simp)]
  | cons kc ks ih =>
    intro occ post hmap hpost
    match occ, hmap with
    | o :: occ', hmap =>
      rw [List.map_cons, List.map_cons] at hmap
      injection hmap with h1 h2
      show matchKw (kc :: ks) (o :: (occ' ++ post)) = some (o :: occ', post)
      unfold matchKw
      rw [if_pos h1, ih occ' post h2 hpost]

theorem match_at_wholeword :
    ∀ (occ : List Char) {m r post : List Char},
      (∀ c ∈ occ, isWordCh c = true) →
      (∀ c ∈ m, isWordCh c = true) →
      (∀ c, post.head? = some c → isWordCh c = false) →
      (∀ c, r.head? = some c → isWordCh c = false) →
      occ ++ post = m ++ r → m = occ ∧ r = post := by
  intro occ
  induction occ with
  | nil =>
    intro m r post _ hm hpost _ heq
    rw [List.nil_append] at heq
    match m, heq with
    | [], heq => exact ⟨rfl, by rw [heq]; rfl⟩
    | c :: m', heq =>
      exfalso
      have hc : post.head? = some c := by rw [heq]; rfl
      have := hpost c hc
      rw [hm c (List.mem_cons_self _ _)] at this
      cases this
  | cons a occ' ih =>
    intro m r post hocc hm hpost hr heq
    match m, heq with
    | [], heq =>
      exfalso
      rw [List.nil_append] at heq
      have hc : r.head? = some a := by rw [← heq]; rfl
      have := hr a hc
      rw [hocc a (List.mem_cons_self _ _)] at this
      cases this
    | b :: m', heq =>
      rw [List.cons_append, List.cons_append] at heq
      injection heq with h1 h2
      subst h1
      rcases ih (fun c hc => hocc c (List.mem_cons_of_mem _ hc))
        (fun c hc => hm c (List.mem_cons_of_mem _ hc)) hpost hr h2 with ⟨hm', hr'⟩
      exact ⟨by rw [hm'], hr'⟩

theorem findMatch_spec :
    ∀ (kws : List String) (cs m r : List Char), findMatch kws cs = some (m, r) →
      m ≠ [] ∧ ∃ k ∈ kws, matchKw k.data cs = some (m, r) := by
  intro kws
  induction kws with
  | nil => intro cs m r h; cases h
  | cons k0 kws ih =>
    intro cs m r h
    unfold findMatch at h
    match h2 : matchKw k0.data cs with
    | some (m0, r0) =>
      rw [h2] at h
      have h' : (if m0.isEmpty = true then findMatch kws cs else some (m0, r0)) =
          some (m, r) := h
      by_cases he : m0.isEmpty = true
      · rw [if_pos he] at h'
        rcases ih cs m r h' with ⟨h3, k, hk, h4⟩
        exact ⟨h3, k, List.mem_cons_of_mem _ hk, h4⟩
      · rw [if_neg he] at h'
        injection h' with h5
        injection h5 with h6 h7
        subst h6
        subst h7
        exact ⟨fun habs => he (by rw [habs]; rfl),
          k0, List.mem_cons_self _ _, h2⟩
    | none =>
      rw [h2] at h
      have h' : findMatch kws cs = some (m, r) := h
      rcases ih cs m r h' with ⟨h3, k, hk, h4⟩
      exact ⟨h3, k, List.mem_cons_of_mem _ hk, h4⟩

theorem findMatch_complete :
    ∀ (kws : List String) (cs : List Char) (k : String), k ∈ kws →
      (∀ k', k' ∈ kws → k'.data ≠ []) →
      (∃ m r, matchKw k.data cs = some (m, r)) →
      ∃ m r, findMatch kws cs = some (m, r) := by
  intro kws
  induction kws with
  | nil => intro cs k hk; cases hk
  | cons k0 kws ih =>
    intro cs k hk hkne hex
    unfold findMatch
    match h2 : matchKw k0.data cs with
    | some (m0, r0) =>
      have hm0 : ¬m0.isEmpty = true := by
        rcases matchKw_spec _ _ _ _ h2 with ⟨-, hlen, -, -⟩
        have hne := hkne k0 (List.mem_cons_self _ _)
        intro habs
        rw [List.isEmpty_iff] at habs
        subst habs
        exact hne (List.length_eq_zero.mp hlen.symm)
      refine ⟨m0, r0, ?_⟩
      show (if m0.isEmpty = true then findMatch kws cs else some (m0, r0)) =
        some (m0, r0)
      rw [if_neg hm0]
    | none =>
      rcases List.mem_cons.mp hk with rfl | hk'
      · rcases hex with ⟨m, r, hm⟩
        rw [h2] at hm
        cases hm
      · rcases ih cs k hk' (fun k' h => hkne k' (List.mem_cons_of_mem _ h)) hex
          with ⟨m, r, hm⟩
        refine ⟨m, r, ?_⟩
        show findMatch kws cs = some (m, r)
        exact hm

theorem findMatch_at_wholeword {kws : List String} {k : String}
    (hkws : ∀ k' ∈ kws, k'.data ≠ [] ∧ ∀ c ∈ k'.data, isWordCh c = true)
    (hk : k ∈ kws) {occ post : List Char}
    (hocc : occ.map toLowerCh = k.data.map toLowerCh)
    (hoccw : ∀ c ∈ occ, isWordCh c = true)
    (hpost : ∀ c, post.head? = some c → isWordCh c = false) :
    findMatch kws (occ ++ post) = some (occ, post) := by
  have hmc : matchKw k.data (occ ++ post) = some (occ, post) :=
    matchKw_complete k.data occ post hocc hpost
  rcases findMatch_complete kws (occ ++ post) k hk
      (fun k' h => (hkws k' h).1) ⟨occ, post, hmc⟩ with ⟨m, r, hfm⟩
  rcases findMatch_spec kws (occ ++ post) m r hfm with ⟨hmne, k'', hk'', hmk⟩
  rcases matchKw_spec _ _ _ _ hmk with ⟨heq, -, hmap, hr⟩
  have hmw : ∀ c ∈ m, isWordCh c = true :=
    map_lower_word_transfer hmap (fun c hc => (hkws k'' hk'').2 c hc)
  rcases match_at_wholeword occ hoccw hmw hpost hr heq with ⟨rfl, rfl⟩
  exact hfm

theorem joinSnd_cons (s : Bool × List Char) (B : List (Bool × List Char)) :
    joinSnd (s :: B) = s.2 ++ joinSnd B := by
  simp [joinSnd]

theorem joinSnd_append (A B : List (Bool × List Char)) :
    joinSnd (A ++ B) = joinSnd A ++ joinSnd B := by
  simp [joinSnd]

theorem renderSegs_cons (s : Bool × List Char) (B : List (Bool × List Char)) :
    renderSegs (s :: B) = renderSeg s ++ renderSegs B := by
  simp [renderSegs]

theorem renderSegs_append (A B : List (Bool × List Char)) :
    renderSegs (A ++ B) = renderSegs A ++ renderSegs B := by
  simp [renderSegs]

theorem getLast?_cons_of_ne_nil (a : Char) {l : List Char} (h : l ≠ []) :
    (a :: l).getLast? = l.getLast? := by
  match l, h with
  | b :: t, _ => exact List.getLast?_cons_cons

/-- The unfolding equation of one scan step on a nonempty text. -/
theorem hlScan_step (kws : List String) (n : Nat) (c : Char) (cs : List Char) (b : Bool) :
    hlScan kws (n + 1) (c :: cs) b =
      if b then (false, [c]) :: hlScan kws n cs (isWordCh c)
      else
        match findMatch kws (c :: cs) with
        | some (m, r) => (true, m) :: hlScan kws n r true
        | none => (false, [c]) :: hlScan kws n cs (isWordCh c) := rfl

theorem hlScan_join (kws : List String) :
    ∀ (fuel : Nat) (cs : List Char) (b : Bool), cs.length ≤ fuel →
      joinSnd (hlScan kws fuel cs b) = cs := by
  intro fuel
  induction fuel with
  | zero =>
    intro cs b h
    rw [List.eq_nil_of_length_eq_zero (Nat.le_zero.mp h)]
    rfl
  | succ n ih =>
    intro cs b h
    match cs with
    | [] => rfl
    | c :: cs' =>
      rw [hlScan_step]
      by_cases hb : b
      · rw [if_pos hb, joinSnd_cons]
        rw [ih cs' (isWordCh c) (by simpa using h)]
        rfl
      · rw [if_neg hb]
        match hfm : findMatch kws (c :: cs') with
        | some (m, r) =>
          rcases findMatch_spec kws _ m r hfm with ⟨hmne, k'', _, hmk⟩
          rcases matchKw_spec _ _ _ _ hmk with ⟨heq, -, -, -⟩
          have hr : r.length ≤ n := by
            have h1 : (c :: cs').length = m.length + r.length := by
              rw [heq, List.length_append]
            have h2 : 1 ≤ m.length := by
              match m, hmne with
              | d :: m', _ => simp [Nat.succ_le_succ_iff]
            simp only [List.length_cons] at h h1
            omega
          rw [joinSnd_cons, ih r true hr, ← heq]
        | none =>
          rw [joinSnd_cons, ih cs' (isWordCh c) (by simpa using h)]
          rfl

theorem hlScan_segs_ne (kws : List String) :
    ∀ (fuel : Nat) (cs : List Char) (b : Bool),
      ∀ s ∈ hlScan kws fuel cs b, s.2 ≠ [] := by
  intro fuel
  induction fuel with
  | zero => intro cs b s hs; cases hs
  | succ n ih =>
    intro cs b s hs
    match cs with
    | [] => cases hs
    | c :: cs' =>
      rw [hlScan_step] at hs
      by_cases hb : b
      · rw [if_pos hb] at hs
        rcases List.mem_cons.mp hs with rfl | hs
        · simp
        · exact ih cs' (isWordCh c) s hs
      · rw [if_neg hb] at hs
        match hfm : findMatch kws (c :: cs') with
        | some (m, r) =>
          rw [hfm] at hs
          rcases List.mem_cons.mp hs with rfl | hs
          · exact (findMatch_spec kws _ m r hfm).1
          · exact ih r true s hs
        | none =>
          rw [hfm] at hs
          rcases List.mem_cons.mp hs with rfl | hs
          · simp
          · exact ih cs' (isWordCh c) s hs

theorem joinSnd_ne_nil {A : List (Bool × List Char)} (h0 : A ≠ [])
    (h : ∀ s ∈ A, s.2 ≠ []) : joinSnd A ≠ [] := by
  match A, h0 with
  | s :: A', _ =>
    rw [joinSnd_cons]
    match hs : s.2, h s (List.mem_cons_self _ _) with
    | c :: t, _ => simp

theorem length_pos_of_ne_nil {m : List Char} (h : m ≠ []) : 1 ≤ m.length := by
  match m, h with
  | c :: m', _ => simp [Nat.succ_le_succ_iff]

theorem hlScan_sound {kws : List String}
    (hkws : ∀ k' ∈ kws, k'.data ≠ [] ∧ ∀ c ∈ k'.data, isWordCh c = true) :
    ∀ (fuel : Nat) (cs : List Char) (b : Bool) (A : List (Bool × List Char))
      (m : List Char) (B : List (Bool × List Char)),
      cs.length ≤ fuel → hlScan kws fuel cs b = A ++ (true, m) :: B →
      m ≠ [] ∧ (∃ k ∈ kws, m.map toLowerCh = k.data.map toLowerCh) ∧
      (∀ c ∈ m, isWordCh c = true) ∧
      (A = [] → b = false) ∧
      (∀ c, (joinSnd A).getLast? = some c → isWordCh c = false) ∧
      (∀ c, (joinSnd B).head? = some c → isWordCh c = false) := by
  intro fuel
  induction fuel with
  | zero =>
    intro cs b A m B h hs
    rw [List.eq_nil_of_length_eq_zero (Nat.le_zero.mp h)] at hs
    exact absurd hs.symm (by simp [show hlScan kws 0 [] b = [] from rfl])
  | succ n ih =>
    intro cs b A m B h hs
    match cs with
    | [] => exact absurd hs.symm (by simp [show hlScan kws (n+1) [] b = [] from rfl])
    | c :: cs' =>
      rw [hlScan_step] at hs
      have hcopy : ∀ (A : List (Bool × List Char)),
          (false, [c]) :: hlScan kws n cs' (isWordCh c) = A ++ (true, m) :: B →
          m ≠ [] ∧ (∃ k ∈ kws, m.map toLowerCh = k.data.map toLowerCh) ∧
          (∀ d ∈ m, isWordCh d = true) ∧
          (A = [] → b = false) ∧
          (∀ d, (joinSnd A).getLast? = some d → isWordCh d = false) ∧
          (∀ d, (joinSnd B).head? = some d → isWordCh d = false) := by
        intro A hs
        match A, hs with
        | [], hs =>
          exfalso
          have h0 : (false, [c]) = ((true, m) : Bool × List Char) := by
            injection hs
          injection h0 with hb2
          cases hb2
        | s :: A', hs =>
          injection hs with hs1 hs2
          subst hs1
          rcases ih cs' (isWordCh c) A' m B (by simpa using h) hs2 with
            ⟨h1, h2, h3, h4, h5, h6⟩
          refine ⟨h1, h2, h3, fun habs => absurd habs (List.cons_ne_nil _ _), ?_, h6⟩
          intro d hd
          rw [joinSnd_cons] at hd
          by_cases hA' : A' = []
          · subst hA'
            have hj : joinSnd ([] : List (Bool × List Char)) = [] := rfl
            rw [hj, List.append_nil] at hd
            have hc2 : ([c] : List Char).getLast? = some c := rfl
            rw [hc2] at hd
            injection hd with h7
            rw [← h7]
            exact h4 rfl
          · have hne : joinSnd A' ≠ [] :=
              joinSnd_ne_nil hA' (fun s hs3 => hlScan_segs_ne kws n cs' (isWordCh c) s
                (by rw [hs2]; exact List.mem_append_left _ hs3))
            rw [List.getLast?_append_of_ne_nil _ hne] at hd
            exact h5 d hd
      by_cases hb : b
      · rw [if_pos hb] at hs
        exact hcopy A hs
      · rw [if_neg hb] at hs
        match hfm : findMatch kws (c :: cs') with
        | none =>
          rw [hfm] at hs
          exact hcopy A hs
        | some (m0, r) =>
          rw [hfm] at hs
          rcases findMatch_spec kws _ m0 r hfm with ⟨hm0ne, k'', hk'', hmk⟩
          rcases matchKw_spec _ _ _ _ hmk with ⟨heq, -, hmap, hrhd⟩
          have hrlen : r.length ≤ n := by
            have h1 : (c :: cs').length = m0.length + r.length := by
              rw [heq, List.length_append]
            have h2 := length_pos_of_ne_nil hm0ne
            simp only [List.length_cons] at h h1
            omega
          match A, hs with
          | [], hs =>
            injection hs with hs1 hs2
            injection hs1 with hs3 hs4
            subst hs4
            refine ⟨hm0ne, ⟨k'', hk'', hmap⟩,
              map_lower_word_transfer hmap (fun d hd => (hkws k'' hk'').2 d hd),
              fun _ => Bool.not_eq_true b |>.mp hb, ?_, ?_⟩
            · intro d hd
              rw [show joinSnd ([] : List (Bool × List Char)) = [] from rfl] at hd
              cases hd
            · rw [← hs2, hlScan_join kws n r true hrlen]
              exact hrhd
          | s :: A', hs =>
            injection hs with hs1 hs2
            subst hs1
            rcases ih r true A' m B hrlen hs2 with ⟨h1, h2, h3, h4, h5, h6⟩
            have hA' : A' ≠ [] := fun habs => by cases h4 habs
            refine ⟨h1, h2, h3, fun habs => absurd habs (List.cons_ne_nil _ _), ?_, h6⟩
            intro d hd
            rw [joinSnd_cons] at hd
            have hne : joinSnd A' ≠ [] :=
              joinSnd_ne_nil hA' (fun s hs3 => hlScan_segs_ne kws n r true s
                (by rw [hs2]; exact List.mem_append_left _ hs3))
            rw [List.getLast?_append_of_ne_nil _ hne] at hd
            exact h5 d hd

theorem hlScan_decompose {kws : List String}
    (hkws : ∀ k' ∈ kws, k'.data ≠ [] ∧ ∀ c ∈ k'.data, isWordCh c = true)
    {k : String} (hk : k ∈ kws) :
    ∀ (fuel : Nat) (pre occ post : List Char) (b : Bool),
      occ.map toLowerCh = k.data.map toLowerCh → occ ≠ [] →
      (∀ c ∈ occ, isWordCh c = true) →
      (∀ c, post.head? = some c → isWordCh c = false) →
      (∀ c, pre.getLast? = some c → isWordCh c = false) →
      (pre = [] → b = false) →
      (pre ++ (occ ++ post)).length ≤ fuel →
      ∃ A B, hlScan kws fuel (pre ++ (occ ++ post)) b = A ++ (true, occ) :: B ∧
        joinSnd A = pre ∧ joinSnd B = post := by
  intro fuel
  induction fuel with
  | zero =>
    intro pre occ post b _ hocc _ _ _ _ hlen
    exfalso
    rw [Nat.le_zero] at hlen
    have := List.eq_nil_of_length_eq_zero hlen
    rcases List.append_eq_nil.mp this with ⟨-, h2⟩
    rcases List.append_eq_nil.mp h2 with ⟨h3, -⟩
    exact hocc h3
  | succ n ih =>
    intro pre occ post b hmap hocc hoccw hpost hpre hb hlen
    match pre with
    | [] =>
      have hbf : b = false := hb rfl
      subst hbf
      rw [List.nil_append] at *
      match occ, hocc with
      | o :: occ', _ =>
        have hstep : hlScan kws (n + 1) ((o :: occ') ++ post) false =
            match findMatch kws ((o :: occ') ++ post) with
            | some (m, r) => (true, m) :: hlScan kws n r true
            | none => (false, [o]) :: hlScan kws n (occ' ++ post) (isWordCh o) := rfl
        rw [hstep, findMatch_at_wholeword hkws hk hmap hoccw hpost]
        refine ⟨[], hlScan kws n post true, rfl, rfl, ?_⟩
        refine hlScan_join kws n post true ?_
        have : ((o :: occ') ++ post).length = occ'.length + 1 + post.length := by
          simp [List.length_append]
          omega
        rw [this] at hlen
        omega
    | p :: pre' =>
      have hplen : (pre' ++ (occ ++ post)).length ≤ n := by
        have : ((p :: pre') ++ (occ ++ post)).length =
            (pre' ++ (occ ++ post)).length + 1 := by simp
        omega
      by_cases hbv : b = true
      · subst hbv
        have hstep : hlScan kws (n + 1) ((p :: pre') ++ (occ ++ post)) true =
            (false, [p]) :: hlScan kws n (pre' ++ (occ ++ post)) (isWordCh p) := rfl
        rw [hstep]
        have hpre' : ∀ c, pre'.getLast? = some c → isWordCh c = false := by
          intro c hc
          refine hpre c ?_
          rw [getLast?_cons_of_ne_nil p (fun habs => by rw [habs] at hc; cases hc)]
          exact hc
        have hb' : pre' = [] → isWordCh p = false := by
          intro habs
          subst habs
          exact hpre p rfl
        rcases ih pre' occ post (isWordCh p) hmap hocc hoccw hpost hpre' hb' hplen
          with ⟨A', B, hsc, hA', hB⟩
        refine ⟨(false, [p]) :: A', B, ?_, ?_, hB⟩
        · rw [hsc]; rfl
        · rw [joinSnd_cons, hA']; rfl
      · have hbf : b = false := Bool.not_eq_true b |>.mp hbv
        subst hbf
        have hstep : hlScan kws (n + 1) ((p :: pre') ++ (occ ++ post)) false =
            match findMatch kws ((p :: pre') ++ (occ ++ post)) with
            | some (m, r) => (true, m) :: hlScan kws n r true
            | none => (false, [p]) :: hlScan kws n (pre' ++ (occ ++ post)) (isWordCh p) := rfl
        rw [hstep]
        match hfm : findMatch kws ((p :: pre') ++ (occ ++ post)) with
        | none =>
          have hpre' : ∀ c, pre'.getLast? = some c → isWordCh c = false := by
            intro c hc
            refine hpre c ?_
            rw [getLast?_cons_of_ne_nil p (fun habs => by rw [habs] at hc; cases hc)]
            exact hc
          have hb' : pre' = [] → isWordCh p = false := by
            intro habs
            subst habs
            exact hpre p rfl
          rcases ih pre' occ post (isWordCh p) hmap hocc hoccw hpost hpre' hb' hplen
            with ⟨A', B, hsc, hA', hB⟩
          refine ⟨(false, [p]) :: A', B, ?_, ?_, hB⟩
          · show (false, [p]) :: hlScan kws n (pre' ++ (occ ++ post)) (isWordCh p) =
              ((false, [p]) :: A') ++ (true, occ) :: B
            rw [hsc]
            rfl
          · rw [joinSnd_cons, hA']; rfl
        | some (m, r) =>
          rcases findMatch_spec kws _ m r hfm with ⟨hmne, k'', hk'', hmk⟩
          rcases matchKw_spec _ _ _ _ hmk with ⟨heq, -, hmap'', hrhd⟩
          have hmw : ∀ c ∈ m, isWordCh c = true :=
            map_lower_word_transfer hmap'' (fun d hd => (hkws k'' hk'').2 d hd)
          have hprene : (p :: pre') ≠ [] := List.cons_ne_nil _ _
          obtain ⟨cl, hcl⟩ : ∃ cl, (p :: pre').getLast? = some cl := by
            match hgl : (p :: pre').getLast? with
            | some cl => exact ⟨cl, rfl⟩
            | none => exact absurd (List.getLast?_eq_none_iff.mp hgl) hprene
          have hclw : isWordCh cl = false := hpre cl hcl
          have hmpre : m <+: (p :: pre') := by
            have hm1 : m <+: (p :: pre') ++ (occ ++ post) := ⟨r, heq.symm⟩
            have hm2 : (p :: pre') <+: (p :: pre') ++ (occ ++ post) := ⟨occ ++ post, rfl⟩
            by_cases hle : m.length ≤ (p :: pre').length
            · exact List.prefix_of_prefix_length_le hm1 hm2 hle
            · exfalso
              have hge : (p :: pre').length ≤ m.length := by omega
              have hpm : (p :: pre') <+: m :=
                List.prefix_of_prefix_length_le hm2 hm1 hge
              have : cl ∈ m := hpm.sublist.mem (List.mem_of_mem_getLast? hcl)
              rw [hmw cl this] at hclw
              cases hclw
          obtain ⟨preRem, hpreEq⟩ := hmpre
          have hlt : m.length < (p :: pre').length := by
            by_contra hge
            push_neg at hge
            have hpm : (p :: pre') <+: m := by
              refine List.prefix_of_prefix_length_le ⟨occ ++ post, rfl⟩ ⟨r, heq.symm⟩ hge
            have : cl ∈ m := hpm.sublist.mem (List.mem_of_mem_getLast? hcl)
            rw [hmw cl this] at hclw
            cases hclw
          have hremne : preRem ≠ [] := by
            intro habs
            rw [habs, List.append_nil] at hpreEq
            rw [hpreEq] at hlt
            omega
          have hr : r = preRem ++ (occ ++ post) := by
            have h1 : m ++ r = (m ++ preRem) ++ (occ ++ post) := by rw [hpreEq]; exact heq.symm
            rw [List.append_assoc] at h1
            exact List.append_cancel_left h1
          have hremlast : ∀ c, preRem.getLast? = some c → isWordCh c = false := by
            intro c hc
            refine hpre c ?_
            rw [← hpreEq, List.getLast?_append_of_ne_nil _ hremne]
            exact hc
          have hrlen : r.length ≤ n := by
            have h1 : ((p :: pre') ++ (occ ++ post)).length = m.length + r.length := by
              rw [heq, List.length_append]
            have h2 := length_pos_of_ne_nil hmne
            simp only [List.cons_append, List.length_cons, List.length_append] at h1 hlen
            omega
          rcases ih preRem occ post true hmap hocc hoccw hpost hremlast
            (fun habs => absurd habs hremne) (by rw [← hr]; exact hrlen)
            with ⟨A', B, hsc, hA', hB⟩
          refine ⟨(true, m) :: A', B, ?_, ?_, hB⟩
          · show (true, m) :: hlScan kws n r true = ((true, m) :: A') ++ (true, occ) :: B
            rw [hr, hsc]
            rfl
          · rw [joinSnd_cons, hA']
            exact hpreEq

theorem highlight_eq {rt jd : String} (h : get_keywords jd ≠ []) :
    (highlight_keywords rt jd).data =
      renderSegs (hlScan (get_keywords jd) rt.data.length rt.data false) := by
  show (if (get_keywords jd).isEmpty then rt
    else String.mk (renderSegs (hlScan (get_keywords jd) rt.data.length rt.data false))).data = _
  rw [if_neg (fun habs => h (List.isEmpty_iff.mp habs))]

theorem keyword_split_facts {jd k : String} (hk : k ∈ get_keywords jd)
    {occ : List Char} (hlow : occ.map toLowerCh = k.data) :
    occ.map toLowerCh = k.data.map toLowerCh ∧ occ ≠ [] ∧
      ∀ c ∈ occ, isWordCh c = true := by
  have hlowk : k.data.map toLowerCh = k.data := get_keywords_lower hk
  have hmap : occ.map toLowerCh = k.data.map toLowerCh := by rw [hlow, hlowk]
  refine ⟨hmap, ?_, map_lower_word_transfer hmap
    (fun c hc => ((get_keywords_props hk).2.2.2.1 c hc).1)⟩
  intro habs
  subst habs
  exact (get_keywords_props hk).2.2.1 (by simpa using hlow.symm)

/-- C6: tokenization agreement between extractor and highlighter — every
keyword in the extracted KeywordSet that occurs in the resume text as a
case-insensitive whole word produces at least one highlighted span in the
highlighter's output. -/
theorem keyword_occurrence_highlighted (rt jd k : String) (pre occ post : List Char)
    (hk : k ∈ get_keywords jd) (hsplit : rt.data = pre ++ (occ ++ post))
    (hlow : occ.map toLowerCh = k.data)
    (hpre : ∀ c, pre.getLast? = some c → isWordCh c = false)
    (hpost : ∀ c, post.head? = some c → isWordCh c = false) :
    ∃ x y, (highlight_keywords rt jd).data =
      x ++ openTag ++ occ ++ closeTag ++ y := by
  rcases keyword_split_facts hk hlow with ⟨hmap, hocc, hoccw⟩
  have hne : get_keywords jd ≠ [] := fun habs => by rw [habs] at hk; cases hk
  rcases hlScan_decompose (@get_keywords_word jd) hk rt.data.length pre occ post false
      hmap hocc hoccw hpost hpre (fun _ => rfl) (by rw [← hsplit]) with ⟨A, B, hsc, -, -⟩
  rw [← hsplit] at hsc
  refine ⟨renderSegs A, renderSegs B, ?_⟩
  rw [highlight_eq hne, hsc, renderSegs_append, renderSegs_cons]
  show renderSegs A ++ ((openTag ++ occ ++ closeTag) ++ renderSegs B) = _
  simp [List.append_assoc]

/-- Witness for `keyword_occurrence_highlighted` on a concrete resume and
job description (case-different whole-word occurrence). -/
theorem keyword_occurrence_highlighted_witness :
    ("python" ∈ get_keywords "python developer wanted") ∧
    ∃ x y, (highlight_keywords "Senior Python dev" "python developer wanted").data =
      x ++ openTag ++ "Python".data ++ closeTag ++ y :=
  ⟨by decide,
    keyword_occurrence_highlighted "Senior Python dev" "python developer wanted"
      "python" "Senior ".data "Python".data " dev".data
      (by decide) (by decide) (by decide) (by decide) (by decide)⟩

/-- C7: single-pass highlighting — the output is the rendering of one
left-to-right scan of the text (`hlScan`, which never rescans inserted
markup because replacements are emitted, not reprocessed); the produced
segmentation partitions the resume text exactly (so spans are
non-overlapping and the text outside the inserted annotations is exactly
the resume text in order), and every highlighted segment is a whole-word
case-insensitive keyword match. -/
theorem single_pass_partition_sound (rt jd : String) (h : get_keywords jd ≠ []) :
    (highlight_keywords rt jd).data =
      renderSegs (hlScan (get_keywords jd) rt.data.length rt.data false) ∧
    joinSnd (hlScan (get_keywords jd) rt.data.length rt.data false) = rt.data ∧
    (∀ A m B, hlScan (get_keywords jd) rt.data.length rt.data false =
        A ++ (true, m) :: B →
      m ≠ [] ∧ (∃ k ∈ get_keywords jd, m.map toLowerCh = k.data) ∧
      rt.data = joinSnd A ++ (m ++ joinSnd B) ∧
      (∀ c, (joinSnd A).getLast? = some c → isWordCh c = false) ∧
      (∀ c, (joinSnd B).head? = some c → isWordCh c = false)) := by
  refine ⟨highlight_eq h, hlScan_join _ _ _ _ (Nat.le_refl _), ?_⟩
  intro A m B hs
  rcases hlScan_sound (@get_keywords_word jd) rt.data.length rt.data false A m B
      (Nat.le_refl _) hs with ⟨h1, ⟨k, hk, hmap⟩, h3, -, h5, h6⟩
  refine ⟨h1, ⟨k, hk, by rw [hmap]; exact get_keywords_lower hk⟩, ?_, h5, h6⟩
  have hj := hlScan_join (get_keywords jd) rt.data.length rt.data false (Nat.le_refl _)
  rw [hs, joinSnd_append, joinSnd_cons] at hj
  exact hj.symm

/-- Witness for `single_pass_partition_sound` at a concrete input. -/
theorem single_pass_partition_sound_witness :
    joinSnd (hlScan (get_keywords "python code") "My Python project".data.length
      "My Python project".data false) = "My Python project".data :=
  (single_pass_partition_sound "My Python project" "python code" (by decide)).2.1

theorem wholeWordOccB_of_split {k : String} {cs pre occ post : List Char}
    (hsplit : cs = pre ++ (occ ++ post)) (hlow : occ.map toLowerCh = k.data)
    (hpre : ∀ c, pre.getLast? = some c → isWordCh c = false)
    (hpost : ∀ c, post.head? = some c → isWordCh c = false) :
    wholeWordOccB k cs = true := by
  have hocc_len : occ.length = k.length := by
    have := congrArg List.length hlow
    simpa using this
  unfold wholeWordOccB
  rw [List.any_eq_true]
  refine ⟨pre.length, ?_, ?_⟩
  · rw [List.mem_range, hsplit, List.length_append]
    omega
  · subst hsplit
    have hdrop : (pre ++ (occ ++ post)).drop pre.length = occ ++ post :=
      List.drop_left _ _
    have htake : (pre ++ (occ ++ post)).take pre.length = pre :=
      List.take_left _ _
    have htk : ((pre ++ (occ ++ post)).drop pre.length).take k.length = occ := by
      rw [hdrop, ← hocc_len]
      exact List.take_left _ _
    have hdk : (pre ++ (occ ++ post)).drop (pre.length + k.length) = post := by
      have hassoc : pre ++ (occ ++ post) = (pre ++ occ) ++ post := by
        rw [List.append_assoc]
      rw [hassoc]
      have hlen2 : pre.length + k.length = (pre ++ occ).length := by
        rw [List.length_append, hocc_len]
      rw [hlen2]
      exact List.drop_left _ _
    rw [Bool.and_eq_true, Bool.and_eq_true]
    refine ⟨⟨?_, ?_⟩, ?_⟩
    · rw [htk, hlow]
      simp
    · rw [htake]
      match hgl : pre.getLast? with
      | none => rfl
      | some c =>
        have := hpre c hgl
        simp [this]
    · rw [hdk]
      match hhd : post.head? with
      | none => rfl
      | some c =>
        have := hpost c hhd
        simp [this]

/-- C8: whole-word highlighting is exact — (a) a case-different
whole-word occurrence of a keyword is covered by exactly one highlighted
span, namely the segment holding exactly that occurrence with its
original casing (the segments before and after it render the untouched
prefix and suffix); and (b) a keyword with no whole-word occurrence (for
example one occurring only as a proper substring of a longer word, as
`script` inside `subscription`) is never the content of a highlighted
span. -/
theorem whole_word_highlighting :
    (∀ (rt jd k : String) (pre occ post : List Char), k ∈ get_keywords jd →
      rt.data = pre ++ (occ ++ post) → occ.map toLowerCh = k.data →
      (∀ c, pre.getLast? = some c → isWordCh c = false) →
      (∀ c, post.head? = some c → isWordCh c = false) →
      ∃ A B, hlScan (get_keywords jd) rt.data.length rt.data false =
          A ++ (true, occ) :: B ∧
        joinSnd A = pre ∧ joinSnd B = post ∧
        (highlight_keywords rt jd).data =
          renderSegs A ++ openTag ++ occ ++ closeTag ++ renderSegs B) ∧
    (∀ (rt jd k : String), k ∈ get_keywords jd →
      wholeWordOccB k rt.data = false →
      ∀ A m B, hlScan (get_keywords jd) rt.data.length rt.data false =
          A ++ (true, m) :: B →
        m.map toLowerCh ≠ k.data) := by
  constructor
  · intro rt jd k pre occ post hk hsplit hlow hpre hpost
    rcases keyword_split_facts hk hlow with ⟨hmap, hocc, hoccw⟩
    have hne : get_keywords jd ≠ [] := fun habs => by rw [habs] at hk; cases hk
    rcases hlScan_decompose (@get_keywords_word jd) hk rt.data.length pre occ post false
        hmap hocc hoccw hpost hpre (fun _ => rfl) (by rw [← hsplit])
      with ⟨A, B, hsc, hA, hB⟩
    rw [← hsplit] at hsc
    refine ⟨A, B, hsc, hA, hB, ?_⟩
    rw [highlight_eq hne, hsc, renderSegs_append, renderSegs_cons]
    show renderSegs A ++ ((openTag ++ occ ++ closeTag) ++ renderSegs B) = _
    simp [List.append_assoc]
  · intro rt jd k hk hB A m B hs hmk
    rcases hlScan_sound (@get_keywords_word jd) rt.data.length rt.data false A m B
        (Nat.le_refl _) hs with ⟨-, -, -, -, h5, h6⟩
    have hj := hlScan_join (get_keywords jd) rt.data.length rt.data false (Nat.le_refl _)
    rw [hs, joinSnd_append, joinSnd_cons] at hj
    have := wholeWordOccB_of_split hj.symm hmk h5 h6
    rw [hB] at this
    cases this

/-- Witness for `whole_word_highlighting`: part (a) at a case-different
whole-word occurrence, part (b) at a text where the keyword occurs only
inside a longer word. -/
theorem whole_word_highlighting_witness :
    (∃ A B, hlScan (get_keywords "python developer wanted")
        "Senior Python dev".data.length "Senior Python dev".data false =
        A ++ (true, "Python".data) :: B ∧
      joinSnd A = "Senior ".data ∧ joinSnd B = " dev".data ∧
      (highlight_keywords "Senior Python dev" "python developer wanted").data =
        renderSegs A ++ openTag ++ "Python".data ++ closeTag ++ renderSegs B) ∧
    (∀ A m B, hlScan (get_keywords "script tools")
        "A subscription fee".data.length "A subscription fee".data false =
        A ++ (true, m) :: B →
      m.map toLowerCh ≠ "script".data) :=
  ⟨whole_word_highlighting.1 "Senior Python dev" "python developer wanted" "python"
      "Senior ".data "Python".data " dev".data (by decide) (by decide) (by decide)
      (by decide) (by decide),
    whole_word_highlighting.2 "A subscription fee" "script tools" "script"
      (by decide) (by decide)⟩

/-! ### C5: parser round-trip lemmas -/

theorem skipWs_eq_self {l : List Char}
    (h : ∀ c, l.head? = some c → isJsonWs c = false) : skipWs l = l :=
  dropWhile_eq_self_of_head _ _ h

theorem cleanCh_props {c : Char} (h : cleanCh c = true) :
    ¬(c = '"') ∧ ¬(c = '\\') ∧ 32 ≤ c.toNat := by
  simp only [cleanCh, Bool.and_eq_true, Bool.not_eq_true', decide_eq_true_eq,
    decide_eq_false_iff_not] at h
  exact ⟨h.1.1, h.1.2, h.2⟩

theorem parseStrAux_clean :
    ∀ (s acc rest : List Char), (∀ c ∈ s, cleanCh c = true) →
      parseStrAux acc (s ++ '"' :: rest) = some (String.mk (acc.reverse ++ s), rest) := by
  intro s
  induction s with
  | nil =>
    intro acc rest _
    show parseStrAux acc ('"' :: rest) = _
    unfold parseStrAux
    rw [if_pos rfl]
    simp
  | cons c s' ih =>
    intro acc rest hc
    obtain ⟨h1, h2, h3⟩ := cleanCh_props (hc c (List.mem_cons_self _ _))
    show parseStrAux acc (c :: (s' ++ '"' :: rest)) = _
    unfold parseStrAux
    rw [if_neg h1, if_neg h2, if_neg (by omega)]
    rw [ih (c :: acc) rest (fun d hd => hc d (List.mem_cons_of_mem _ hd))]
    simp [List.append_assoc]

theorem parseStr_of_clean (x : String) (hx : ∀ c ∈ x.data, cleanCh c = true)
    (rest : List Char) :
    parseStrAux [] (x.data ++ '"' :: rest) = some (x, rest) := by
  rw [parseStrAux_clean x.data [] rest hx]
  rfl

theorem parseNatAux_stop {rest : List Char}
    (h : ∀ c, rest.head? = some c → isDigitCh c = false) (acc : Nat) :
    parseNatAux acc rest = (acc, rest) := by
  match rest with
  | [] => rfl
  | c :: t =>
    unfold parseNatAux
    rw [if_neg (by rw [h c rfl]; simp)]

theorem digitCh_toNat (n : Nat) (h : n < 10) : (digitCh n).toNat = 48 + n :=
  char_toNat_ofNat _ (by omega)

theorem isDigitCh_digitCh (n : Nat) (h : n < 10) : isDigitCh (digitCh n) = true := by
  simp only [isDigitCh, digitCh_toNat n h, Bool.and_eq_true, decide_eq_true_eq]
  omega

theorem natDigitsAux_all_digits :
    ∀ (fuel n : Nat), ∀ c ∈ natDigitsAux fuel n, isDigitCh c = true := by
  intro fuel
  induction fuel with
  | zero => intro n c hc; cases hc
  | succ f ih =>
    intro n c hc
    unfold natDigitsAux at hc
    by_cases hn : n < 10
    · rw [if_pos hn] at hc
      rcases List.mem_singleton.mp hc with rfl
      exact isDigitCh_digitCh n hn
    · rw [if_neg hn] at hc
      rcases List.mem_append.mp hc with hc | hc
      · exact ih (n / 10) c hc
      · rcases List.mem_singleton.mp hc with rfl
        exact isDigitCh_digitCh _ (Nat.mod_lt n (by norm_num))

theorem natDigitsAux_ne_nil (f n : Nat) : natDigitsAux (f + 1) n ≠ [] := by
  unfold natDigitsAux
  by_cases hn : n < 10
  · rw [if_pos hn]; simp
  · rw [if_neg hn]; simp

theorem parseNatAux_step (a : Nat) (c : Char) (cs : List Char)
    (h : isDigitCh c = true) :
    parseNatAux a (c :: cs) = parseNatAux (a * 10 + (c.toNat - 48)) cs := by
  conv_lhs => unfold parseNatAux
  rw [if_pos h]

theorem natDigitsAux_parse :
    ∀ (fuel n acc : Nat) (rest : List Char), n < 10 ^ fuel →
      parseNatAux acc (natDigitsAux fuel n ++ rest) =
        parseNatAux (acc * 10 ^ (natDigitsAux fuel n).length + n) rest := by
  intro fuel
  induction fuel with
  | zero =>
    intro n acc rest h
    have hn : n = 0 := by
      have : (10 : Nat) ^ 0 = 1 := by norm_num
      omega
    subst hn
    show parseNatAux acc rest = parseNatAux (acc * 10 ^ ([] : List Char).length + 0) rest
    norm_num
  | succ f ih =>
    intro n acc rest h
    unfold natDigitsAux
    by_cases hn : n < 10
    · rw [if_pos hn]
      show parseNatAux acc (digitCh n :: rest) = _
      rw [parseNatAux_step acc _ rest (isDigitCh_digitCh n hn), digitCh_toNat n hn]
      have hl : ([digitCh n] : List Char).length = 1 := rfl
      rw [hl]
      have : acc * 10 + (48 + n - 48) = acc * 10 ^ 1 + n := by
        have h10 : (10 : Nat) ^ 1 = 10 := by norm_num
        omega
      rw [this]
    · rw [if_neg hn]
      rw [List.append_assoc]
      have hdiv : n / 10 < 10 ^ f := by
        have hps : (10 : Nat) ^ (f + 1) = 10 * 10 ^ f := by ring
        rw [hps] at h
        exact Nat.div_lt_of_lt_mul h
      rw [List.singleton_append]
      rw [ih (n / 10) acc (digitCh (n % 10) :: rest) hdiv]
      rw [parseNatAux_step _ _ rest (isDigitCh_digitCh _ (Nat.mod_lt n (by norm_num))),
        digitCh_toNat _ (Nat.mod_lt n (by norm_num))]
      have hlen : (natDigitsAux f (n / 10) ++ [digitCh (n % 10)]).length =
          (natDigitsAux f (n / 10)).length + 1 := by simp
      rw [hlen]
      congr 1
      have hps : (10 : Nat) ^ ((natDigitsAux f (n / 10)).length + 1) =
          10 ^ (natDigitsAux f (n / 10)).length * 10 := pow_succ 10 _
      rw [hps]
      have hdm := Nat.div_add_mod n 10
      set X := (10 : Nat) ^ (natDigitsAux f (n / 10)).length
      have hmul : acc * (X * 10) = acc * X * 10 := by ring
      omega

theorem parseNum_encNat (n : Nat) (rest : List Char)
    (hrest : ∀ c, rest.head? = some c →
      isDigitCh c = false ∧ ¬(c = '.') ∧ ¬(c = 'e') ∧ ¬(c = 'E')) :
    parseNum false (encNat n ++ rest) = some (Json.num (n : Int), rest) := by
  have hlt : n < 10 ^ (n + 1) := by
    calc n < 10 ^ n := Nat.lt_pow_self (by norm_num) n
    _ ≤ 10 ^ (n + 1) := Nat.pow_le_pow_right (by norm_num) (Nat.le_succ n)
  have hparse := natDigitsAux_parse (n + 1) n 0 rest hlt
  match hE : encNat n with
  | [] => exact absurd hE (natDigitsAux_ne_nil n n)
  | c :: D =>
    have hcd : isDigitCh c = true :=
      natDigitsAux_all_digits (n + 1) n c (by rw [show natDigitsAux (n+1) n = encNat n from rfl, hE]; exact List.mem_cons_self _ _)
    have hE' : natDigitsAux (n + 1) n = c :: D := hE
    rw [hE', List.cons_append] at hparse
    have hstep := parseNatAux_step 0 c (D ++ rest) hcd
    have hfin : parseNatAux (c.toNat - 48) (D ++ rest) = (n, rest) := by
      have h0 : (0 : Nat) * 10 + (c.toNat - 48) = c.toNat - 48 := by omega
      rw [h0] at hstep
      rw [← hstep, hparse]
      have h1 : (0 : Nat) * 10 ^ (c :: D).length + n = n := by omega
      rw [h1]
      exact parseNatAux_stop (fun d hd => (hrest d hd).1) n
    show parseNum false (c :: (D ++ rest)) = _
    simp only [parseNum]
    rw [if_pos hcd, hfin]
    match hR : rest with
    | [] => rfl
    | d :: t =>
      obtain ⟨-, hd1, hd2, hd3⟩ := hrest d rfl
      simp [hd1, hd2, hd3]

theorem skipWs_cons_of {c : Char} (h : isJsonWs c = false) (t : List Char) :
    skipWs (c :: t) = c :: t := by
  unfold skipWs
  rw [List.dropWhile_cons, if_neg (by rw [h]; simp)]

theorem cleanStr_cleanCh {s : String} (h : cleanStr s = true) :
    ∀ c ∈ s.data, cleanCh c = true := by
  intro c hc
  have := List.all_eq_true.mp h c hc
  simp only [Bool.and_eq_true] at this
  simp only [cleanCh, Bool.and_eq_true]
  exact ⟨⟨this.1.1.1, this.1.1.2⟩, this.2⟩

theorem encStr_append (x : String) (Y : List Char) :
    encStr x ++ Y = '"' :: (x.data ++ '"' :: Y) := by
  simp [encStr, List.append_assoc]

theorem parseVal_quote (f : Nat) (rest : List Char) :
    parseVal (f + 1) ('"' :: rest) =
      match parseStrAux [] rest with
      | some (s, r) => some (Json.str s, r)
      | none => none := by
  conv_lhs => unfold parseVal
  rw [if_pos rfl]

theorem parseVal_lbrack (f : Nat) (rest : List Char) :
    parseVal (f + 1) ('[' :: rest) =
      match skipWs rest with
      | [] => none
      | d :: r1 =>
        if d = ']' then some (Json.arr [], r1)
        else
          match parseElems f (d :: r1) with
          | some (xs, r2) => some (Json.arr xs, r2)
          | none => none := by
  conv_lhs => unfold parseVal
  rw [if_neg (by decide), if_neg (by decide), if_pos rfl]

theorem parseVal_lbrace (f : Nat) (rest : List Char) :
    parseVal (f + 1) (lbrace :: rest) =
      match skipWs rest with
      | [] => none
      | d :: r1 =>
        if d = rbrace then some (Json.obj [], r1)
        else
          match parseMembers f (d :: r1) with
          | some (kvs, r2) => some (Json.obj kvs, r2)
          | none => none := by
  conv_lhs => unfold parseVal
  rw [if_neg (by decide), if_pos rfl]

theorem parseVal_digit (f : Nat) {c : Char} (rest : List Char)
    (h : isDigitCh c = true) :
    parseVal (f + 1) (c :: rest) = parseNum false (c :: rest) := by
  have hc : 48 ≤ c.toNat ∧ c.toNat ≤ 57 := by
    simpa [isDigitCh, Bool.and_eq_true, decide_eq_true_eq] using h
  have hno : ∀ (d : Char), d.toNat < 48 ∨ 57 < d.toNat → ¬(c = d) := by
    intro d hd heq
    rw [heq] at hc
    omega
  conv_lhs => unfold parseVal
  rw [if_neg (hno '"' (by decide)), if_neg (hno lbrace (by decide)),
    if_neg (hno '[' (by decide)), if_neg (hno 't' (by decide)),
    if_neg (hno 'f' (by decide)), if_neg (hno 'n' (by decide)),
    if_neg (hno '-' (by decide)), if_pos h]

theorem parseElems_strs :
    ∀ (ss : List String) (x : String) (f : Nat) (rest : List Char),
      ss.length + 1 ≤ f → cleanStr x = true → (∀ s ∈ ss, cleanStr s = true) →
      parseElems (f + 1) (encStr x ++ (encStrListRest ss ++ (']' :: rest))) =
        some ((x :: ss).map Json.str, rest) := by
  intro ss
  induction ss with
  | nil =>
    intro x f rest hf hx _
    match f, hf with
    | f' + 1, _ =>
      rw [encStr_append]
      conv_lhs => unfold parseElems
      rw [parseVal_quote, parseStr_of_clean x (cleanStr_cleanCh hx)]
      dsimp only
      rw [show encStrListRest [] ++ (']' :: rest) = ']' :: rest from rfl]
      rw [skipWs_cons_of (by decide)]
      dsimp only
      rw [if_neg (by decide), if_pos rfl]
      rfl
  | cons s2 ss' ih =>
    intro x f rest hf hx hss
    match f, hf with
    | f' + 1, hf2 =>
      rw [encStr_append]
      conv_lhs => unfold parseElems
      rw [parseVal_quote, parseStr_of_clean x (cleanStr_cleanCh hx)]
      dsimp only
      rw [show encStrListRest (s2 :: ss') ++ (']' :: rest) =
          ',' :: (encStr s2 ++ (encStrListRest ss' ++ (']' :: rest))) from by
        show (',' :: encStr s2 ++ encStrListRest ss') ++ (']' :: rest) = _
        simp [List.append_assoc]]
      rw [skipWs_cons_of (by decide)]
      dsimp only
      rw [if_pos rfl]
      rw [show skipWs (encStr s2 ++ (encStrListRest ss' ++ (']' :: rest))) =
          encStr s2 ++ (encStrListRest ss' ++ (']' :: rest)) from by
        rw [encStr_append]
        exact skipWs_cons_of (by decide) _]
      rw [ih s2 f' rest (by simp at hf2 ⊢; omega) (hss s2 (List.mem_cons_self _ _))
        (fun s h => hss s (List.mem_cons_of_mem _ h))]
      rfl

theorem parseVal_strList (f : Nat) (xs : List String) (rest : List Char)
    (hf : xs.length + 2 ≤ f) (hxs : ∀ s ∈ xs, cleanStr s = true) :
    parseVal f (encStrList xs ++ rest) = some (Json.arr (xs.map Json.str), rest) := by
  match xs with
  | [] =>
    match f, hf with
    | f' + 1, _ =>
      rw [show encStrList [] ++ rest = '[' :: ']' :: rest from rfl]
      rw [parseVal_lbrack]
      rw [skipWs_cons_of (by decide)]
      dsimp only
      rw [if_pos rfl]
      rfl
  | x :: ss =>
    match f, hf with
    | f' + 1, hf2 =>
      have hf3 : ss.length + 2 ≤ f' := by simp at hf2; omega
      obtain ⟨g, rfl⟩ : ∃ g, f' = g + 1 := ⟨f' - 1, by omega⟩
      rw [show encStrList (x :: ss) ++ rest =
          '[' :: (encStr x ++ (encStrListRest ss ++ (']' :: rest))) from by
        show ('[' :: encStr x ++ encStrListRest ss ++ [']']) ++ rest = _
        simp [List.append_assoc]]
      rw [parseVal_lbrack]
      rw [show skipWs (encStr x ++ (encStrListRest ss ++ (']' :: rest))) =
          encStr x ++ (encStrListRest ss ++ (']' :: rest)) from by
        rw [encStr_append]
        exact skipWs_cons_of (by decide) _]
      rw [encStr_append]
      dsimp only
      rw [if_neg (by decide)]
      rw [← encStr_append]
      rw [parseElems_strs ss x g rest (by omega) (hxs x (List.mem_cons_self _ _))
        (fun s h => hxs s (List.mem_cons_of_mem _ h))]

theorem head?_cons_eq {c a : Char} {l : List Char} (h : (a :: l).head? = some c) :
    c = a := by
  rw [List.head?_cons] at h
  injection h with h2
  exact h2.symm

theorem parseVal_encStr (f : Nat) (x : String) (hx : cleanStr x = true)
    (rest : List Char) :
    parseVal (f + 1) (encStr x ++ rest) = some (Json.str x, rest) := by
  rw [encStr_append, parseVal_quote, parseStr_of_clean x (cleanStr_cleanCh hx)]

theorem parseVal_encNat (f : Nat) (n : Nat) (rest : List Char)
    (hrest : ∀ c, rest.head? = some c →
      isDigitCh c = false ∧ ¬(c = '.') ∧ ¬(c = 'e') ∧ ¬(c = 'E')) :
    parseVal (f + 1) (encNat n ++ rest) = some (Json.num (n : Int), rest) := by
  match hE : encNat n with
  | [] => exact absurd hE (natDigitsAux_ne_nil n n)
  | c :: D =>
    have hc : isDigitCh c = true :=
      natDigitsAux_all_digits (n + 1) n c
        (by rw [show natDigitsAux (n + 1) n = encNat n from rfl, hE]
            exact List.mem_cons_self _ _)
    rw [List.cons_append, parseVal_digit f _ hc, ← List.cons_append, ← hE]
    exact parseNum_encNat n rest hrest

theorem isJsonWs_of_digit {c : Char} (h : isDigitCh c = true) : isJsonWs c = false := by
  simp only [isDigitCh, Bool.and_eq_true, decide_eq_true_eq] at h
  simp only [isJsonWs, Bool.or_eq_false_iff, decide_eq_false_iff_not]
  omega

theorem skipWs_encNat_append (n : Nat) (Y : List Char) :
    skipWs (encNat n ++ Y) = encNat n ++ Y := by
  match hE : encNat n with
  | [] => exact absurd hE (natDigitsAux_ne_nil n n)
  | c :: D =>
    have hc : isDigitCh c = true :=
      natDigitsAux_all_digits (n + 1) n c
        (by rw [show natDigitsAux (n + 1) n = encNat n from rfl, hE]
            exact List.mem_cons_self _ _)
    rw [List.cons_append]
    exact skipWs_cons_of (isJsonWs_of_digit hc) _

theorem skipWs_encStrList_append (xs : List String) (Y : List Char) :
    skipWs (encStrList xs ++ Y) = encStrList xs ++ Y := by
  match xs with
  | [] =>
    show skipWs ('[' :: (']' :: Y)) = '[' :: (']' :: Y)
    exact skipWs_cons_of (by decide) _
  | x :: ss =>
    show skipWs ('[' :: ((encStr x ++ encStrListRest ss ++ [']']) ++ Y)) = _
    exact skipWs_cons_of (by decide) _

theorem parseMembers_step_more (f : Nat) (key : String)
    (hk : ∀ c ∈ key.data, cleanCh c = true)
    {T T3 : List Char} {v : Json}
    (hTh : skipWs T = T) (hT : parseVal f T = some (v, ',' :: T3))
    (hT3 : skipWs T3 = T3) :
    parseMembers (f + 1) ('"' :: (key.data ++ '"' :: ':' :: T)) =
      match parseMembers f T3 with
      | some (kvs, r) => some ((key, v) :: kvs, r)
      | none => none := by
  conv_lhs => unfold parseMembers
  rw [if_pos rfl, parseStr_of_clean key hk (':' :: T)]
  dsimp only
  rw [skipWs_cons_of (by decide)]
  dsimp only
  rw [if_pos rfl, hTh, hT]
  dsimp only
  rw [skipWs_cons_of (by decide)]
  dsimp only
  rw [if_pos rfl, hT3]

theorem parseMembers_step_last (f : Nat) (key : String)
    (hk : ∀ c ∈ key.data, cleanCh c = true)
    {T T3 : List Char} {v : Json}
    (hTh : skipWs T = T) (hT : parseVal f T = some (v, rbrace :: T3)) :
    parseMembers (f + 1) ('"' :: (key.data ++ '"' :: ':' :: T)) =
      some ([(key, v)], T3) := by
  conv_lhs => unfold parseMembers
  rw [if_pos rfl, parseStr_of_clean key hk (':' :: T)]
  dsimp only
  rw [skipWs_cons_of (by decide)]
  dsimp only
  rw [if_pos rfl, hTh, hT]
  dsimp only
  rw [skipWs_cons_of (by decide)]
  dsimp only
  rw [if_neg (by decide), if_pos rfl]

theorem skipWs_encStr_append (x : String) (Y : List Char) :
    skipWs (encStr x ++ Y) = encStr x ++ Y := by
  rw [encStr_append]
  exact skipWs_cons_of (by decide) _

theorem parseVal_encodeResult (r : AnalysisResult) (hr : cleanResult r) (F : Nat)
    (hF : r.missingKeywords.length + r.extractedSkills.length +
      r.contactInfo.emails.length + r.contactInfo.phoneNumbers.length + 12 ≤ F) :
    parseVal F (encodeAnalysisResult r) = some (jsonOfResult r, []) := by
  obtain ⟨hsc0, _hsc1, hmkA, hfbA, hskA, hemA, hphA⟩ := hr
  have hmk : ∀ s ∈ r.missingKeywords, cleanStr s = true :=
    fun s hs => List.all_eq_true.mp hmkA s hs
  have hskl : ∀ s ∈ r.extractedSkills, cleanStr s = true :=
    fun s hs => List.all_eq_true.mp hskA s hs
  have heml : ∀ s ∈ r.contactInfo.emails, cleanStr s = true :=
    fun s hs => List.all_eq_true.mp hemA s hs
  have hphl : ∀ s ∈ r.contactInfo.phoneNumbers, cleanStr s = true :=
    fun s hs => List.all_eq_true.mp hphA s hs
  obtain ⟨v, rfl⟩ : ∃ w, F = w + 1 + 1 + 1 + 1 + 1 + 1 + 1 + 1 + 1 :=
    ⟨F - 9, by omega⟩
  have hcast : ((r.atsScore.toNat : Int)) = r.atsScore := Int.toNat_of_nonneg hsc0
  have hPh : parseVal v
        (encStrList r.contactInfo.phoneNumbers ++ (rbrace :: [rbrace])) =
      some (Json.arr (r.contactInfo.phoneNumbers.map Json.str), rbrace :: [rbrace]) :=
    parseVal_strList v r.contactInfo.phoneNumbers (rbrace :: [rbrace]) (by omega) hphl
  have hN2 : parseMembers (v + 1) (encN2 r) =
      some ([("phone_numbers",
        Json.arr (r.contactInfo.phoneNumbers.map Json.str))], [rbrace]) := by
    simp only [encN2]
    exact parseMembers_step_last v "phone_numbers" (by decide)
      (skipWs_encStrList_append r.contactInfo.phoneNumbers (rbrace :: [rbrace])) hPh
  have hskN2 : skipWs (encN2 r) = encN2 r := by
    simp only [encN2]
    exact skipWs_cons_of (by decide) _
  have hEm : parseVal (v + 1) (encStrList r.contactInfo.emails ++ (',' :: encN2 r)) =
      some (Json.arr (r.contactInfo.emails.map Json.str), ',' :: encN2 r) :=
    parseVal_strList (v + 1) r.contactInfo.emails (',' :: encN2 r) (by omega) heml
  have hN1 : parseMembers (v + 1 + 1) (encN1 r) =
      some ([("emails", Json.arr (r.contactInfo.emails.map Json.str)),
             ("phone_numbers",
              Json.arr (r.contactInfo.phoneNumbers.map Json.str))], [rbrace]) := by
    simp only [encN1]
    have h1 := parseMembers_step_more (v + 1) "emails" (by decide)
      (skipWs_encStrList_append r.contactInfo.emails (',' :: encN2 r)) hEm hskN2
    rw [hN2] at h1
    exact h1
  have hskN1 : skipWs (encN1 r) = encN1 r := by
    simp only [encN1]
    exact skipWs_cons_of (by decide) _
  have hCI : parseVal (v + 1 + 1 + 1) (lbrace :: encN1 r) =
      some (Json.obj [("emails", Json.arr (r.contactInfo.emails.map Json.str)),
             ("phone_numbers",
              Json.arr (r.contactInfo.phoneNumbers.map Json.str))], rbrace :: []) := by
    rw [parseVal_lbrace (v + 1 + 1) (encN1 r), hskN1]
    simp only [encN1] at hN1 ⊢
    rw [if_neg (by decide), hN1]
  have hM5 : parseMembers (v + 1 + 1 + 1 + 1) (encM5 r) =
      some ([("contact_info",
        Json.obj [("emails", Json.arr (r.contactInfo.emails.map Json.str)),
             ("phone_numbers",
              Json.arr (r.contactInfo.phoneNumbers.map Json.str))])], []) := by
    simp only [encM5]
    exact parseMembers_step_last (v + 1 + 1 + 1) "contact_info" (by decide)
      (skipWs_cons_of (by decide) _) hCI
  have hskM5 : skipWs (encM5 r) = encM5 r := by
    simp only [encM5]
    exact skipWs_cons_of (by decide) _
  have hSkV : parseVal (v + 1 + 1 + 1 + 1)
        (encStrList r.extractedSkills ++ (',' :: encM5 r)) =
      some (Json.arr (r.extractedSkills.map Json.str), ',' :: encM5 r) :=
    parseVal_strList (v + 1 + 1 + 1 + 1) r.extractedSkills (',' :: encM5 r)
      (by omega) hskl
  have hM4 : parseMembers (v + 1 + 1 + 1 + 1 + 1) (encM4 r) =
      some ([("extracted_skills", Json.arr (r.extractedSkills.map Json.str)),
             ("contact_info",
        Json.obj [("emails", Json.arr (r.contactInfo.emails.map Json.str)),
             ("phone_numbers",
              Json.arr (r.contactInfo.phoneNumbers.map Json.str))])], []) := by
    simp only [encM4]
    have h1 := parseMembers_step_more (v + 1 + 1 + 1 + 1) "extracted_skills" (by decide)
      (skipWs_encStrList_append r.extractedSkills (',' :: encM5 r)) hSkV hskM5
    rw [hM5] at h1
    exact h1
  have hskM4 : skipWs (encM4 r) = encM4 r := by
    simp only [encM4]
    exact skipWs_cons_of (by decide) _
  have hFb : parseVal (v + 1 + 1 + 1 + 1 + 1) (encStr r.feedback ++ (',' :: encM4 r)) =
      some (Json.str r.feedback, ',' :: encM4 r) :=
    parseVal_encStr (v + 1 + 1 + 1 + 1) r.feedback hfbA (',' :: encM4 r)
  have hM3 : parseMembers (v + 1 + 1 + 1 + 1 + 1 + 1) (encM3 r) =
      some ([("feedback", Json.str r.feedback),
             ("extracted_skills", Json.arr (r.extractedSkills.map Json.str)),
             ("contact_info",
        Json.obj [("emails", Json.arr (r.contactInfo.emails.map Json.str)),
             ("phone_numbers",
              Json.arr (r.contactInfo.phoneNumbers.map Json.str))])], []) := by
    simp only [encM3]
    have h1 := parseMembers_step_more (v + 1 + 1 + 1 + 1 + 1) "feedback" (by decide)
      (skipWs_encStr_append r.feedback (',' :: encM4 r)) hFb hskM4
    rw [hM4] at h1
    exact h1
  have hskM3 : skipWs (encM3 r) = encM3 r := by
    simp only [encM3]
    exact skipWs_cons_of (by decide) _
  have hMkV : parseVal (v + 1 + 1 + 1 + 1 + 1 + 1)
        (encStrList r.missingKeywords ++ (',' :: encM3 r)) =
      some (Json.arr (r.missingKeywords.map Json.str), ',' :: encM3 r) :=
    parseVal_strList (v + 1 + 1 + 1 + 1 + 1 + 1) r.missingKeywords (',' :: encM3 r)
      (by omega) hmk
  have hM2 : parseMembers (v + 1 + 1 + 1 + 1 + 1 + 1 + 1) (encM2 r) =
      some ([("missing_keywords", Json.arr (r.missingKeywords.map Json.str)),
             ("feedback", Json.str r.feedback),
             ("extracted_skills", Json.arr (r.extractedSkills.map Json.str)),
             ("contact_info",
        Json.obj [("emails", Json.arr (r.contactInfo.emails.map Json.str)),
             ("phone_numbers",
              Json.arr (r.contactInfo.phoneNumbers.map Json.str))])], []) := by
    simp only [encM2]
    have h1 := parseMembers_step_more (v + 1 + 1 + 1 + 1 + 1 + 1) "missing_keywords"
      (by decide)
      (skipWs_encStrList_append r.missingKeywords (',' :: encM3 r)) hMkV hskM3
    rw [hM3] at h1
    exact h1
  have hskM2 : skipWs (encM2 r) = encM2 r := by
    simp only [encM2]
    exact skipWs_cons_of (by decide) _
  have hAts : parseVal (v + 1 + 1 + 1 + 1 + 1 + 1 + 1)
        (encNat r.atsScore.toNat ++ (',' :: encM2 r)) =
      some (Json.num ((r.atsScore.toNat : Int)), ',' :: encM2 r) :=
    parseVal_encNat (v + 1 + 1 + 1 + 1 + 1 + 1) r.atsScore.toNat (',' :: encM2 r)
      (fun c hc => by rw [head?_cons_eq hc]; decide)
  rw [hcast] at hAts
  have hM1 : parseMembers (v + 1 + 1 + 1 + 1 + 1 + 1 + 1 + 1) (encM1 r) =
      some ([("ats_score", Json.num r.atsScore),
             ("missing_keywords", Json.arr (r.missingKeywords.map Json.str)),
             ("feedback", Json.str r.feedback),
             ("extracted_skills", Json.arr (r.extractedSkills.map Json.str)),
             ("contact_info",
        Json.obj [("emails", Json.arr (r.contactInfo.emails.map Json.str)),
             ("phone_numbers",
              Json.arr (r.contactInfo.phoneNumbers.map Json.str))])], []) := by
    simp only [encM1]
    have h1 := parseMembers_step_more (v + 1 + 1 + 1 + 1 + 1 + 1 + 1) "ats_score"
      (by decide)
      (skipWs_encNat_append r.atsScore.toNat (',' :: encM2 r)) hAts hskM2
    rw [hM2] at h1
    exact h1
  rw [show encodeAnalysisResult r = lbrace :: encM1 r from rfl]
  rw [parseVal_lbrace (v + 1 + 1 + 1 + 1 + 1 + 1 + 1 + 1) (encM1 r)]
  rw [show skipWs (encM1 r) = encM1 r from by
    simp only [encM1]
    exact skipWs_cons_of (by decide) _]
  simp only [encM1] at hM1 ⊢
  rw [if_neg (by decide), hM1]
  rfl

theorem encStrListRest_length : ∀ ss : List String,
    ss.length ≤ (encStrListRest ss).length := by
  intro ss
  induction ss with
  | nil => simp [encStrListRest]
  | cons s t ih =>
    show (s :: t).length ≤ (',' :: encStr s ++ encStrListRest t).length
    simp only [List.length_cons, List.length_append, encStr]
    omega

theorem encStrList_length (xs : List String) :
    xs.length ≤ (encStrList xs).length := by
  match xs with
  | [] => simp [encStrList]
  | s :: t =>
    have h := encStrListRest_length t
    show (s :: t).length ≤ ('[' :: encStr s ++ encStrListRest t ++ [']']).length
    simp only [List.length_cons, List.length_append, List.length_singleton]
    omega

theorem encodeAnalysisResult_length (r : AnalysisResult) :
    r.missingKeywords.length + r.extractedSkills.length +
      r.contactInfo.emails.length + r.contactInfo.phoneNumbers.length + 12 ≤
    (encodeAnalysisResult r).length + 1 := by
  have h1 := encStrList_length r.missingKeywords
  have h2 := encStrList_length r.extractedSkills
  have h3 := encStrList_length r.contactInfo.emails
  have h4 := encStrList_length r.contactInfo.phoneNumbers
  simp only [encodeAnalysisResult, List.length_cons, List.length_append]
  omega

theorem jsonLoads_encodeResult (r : AnalysisResult) (hr : cleanResult r) :
    jsonLoads (encodeAnalysisResult r) = some (jsonOfResult r) := by
  unfold jsonLoads
  rw [show skipWs (encodeAnalysisResult r) = encodeAnalysisResult r from by
    rw [show encodeAnalysisResult r = lbrace :: encM1 r from rfl]
    exact skipWs_cons_of (by decide) _]
  rw [parseVal_encodeResult r hr ((encodeAnalysisResult r).length + 1)
    (encodeAnalysisResult_length r)]
  rfl

theorem dropWhile_append_head (p : Char → Bool) :
    ∀ (a b : List Char), (∀ c, b.head? = some c → p c = false) →
      (a ++ b).dropWhile p = a.dropWhile p ++ b := by
  intro a
  induction a with
  | nil =>
    intro b hb
    show b.dropWhile p = List.dropWhile p [] ++ b
    rw [dropWhile_eq_self_of_head p b hb]
    rfl
  | cons x a' ih =>
    intro b hb
    show List.dropWhile p (x :: (a' ++ b)) = List.dropWhile p (x :: a') ++ b
    rw [List.dropWhile_cons, List.dropWhile_cons]
    by_cases hx : p x = true
    · rw [if_pos hx, if_pos hx]
      exact ih b hb
    · rw [if_neg hx, if_neg hx]
      rfl

theorem dropWhile_eq_nil_of_all (p : Char → Bool) :
    ∀ (l : List Char), (∀ c ∈ l, p c = true) → l.dropWhile p = [] := by
  intro l
  induction l with
  | nil => intro _; rfl
  | cons x t ih =>
    intro h
    rw [List.dropWhile_cons, if_pos (h x (List.mem_cons_self _ _))]
    exact ih (fun c hc => h c (List.mem_cons_of_mem _ hc))

theorem stripFences_id : ∀ (l : List Char),
    hasSixBackquotes l = false → stripFences l = l := by
  intro l
  induction l with
  | nil => intro _; rfl
  | cons c t ih =>
    intro h
    rcases t with _ | ⟨c2, t2⟩
    · rfl
    rcases t2 with _ | ⟨c3, t3⟩
    · rfl
    rcases t3 with _ | ⟨c4, t4⟩
    · rfl
    rcases t4 with _ | ⟨c5, t5⟩
    · rfl
    rcases t5 with _ | ⟨c6, cs⟩
    · rfl
    unfold hasSixBackquotes at h
    rw [Bool.or_eq_false_iff] at h
    conv_lhs => unfold stripFences
    rw [if_neg (by simp [h.1]), ih h.2]

theorem getLast?_key_val (key T : List Char) (hT : T ≠ []) :
    (('"' : Char) :: (key ++ '"' :: ':' :: T)).getLast? = T.getLast? := by
  rw [getLast?_cons_of_ne_nil _ (by simp)]
  rw [List.getLast?_append_of_ne_nil _ (by simp)]
  rw [getLast?_cons_of_ne_nil _ (by simp)]
  rw [getLast?_cons_of_ne_nil _ hT]

theorem encN2_getLast (r : AnalysisResult) : (encN2 r).getLast? = some rbrace := by
  simp only [encN2]
  rw [getLast?_key_val _ _ (by simp)]
  rw [List.getLast?_append_of_ne_nil _ (by simp)]
  rfl

theorem encN1_getLast (r : AnalysisResult) : (encN1 r).getLast? = some rbrace := by
  simp only [encN1]
  rw [getLast?_key_val _ _ (by simp)]
  rw [List.getLast?_append_of_ne_nil _ (by simp)]
  rw [getLast?_cons_of_ne_nil _ (by simp [encN2])]
  exact encN2_getLast r

theorem encM5_getLast (r : AnalysisResult) : (encM5 r).getLast? = some rbrace := by
  simp only [encM5]
  rw [getLast?_key_val _ _ (List.cons_ne_nil _ _)]
  rw [getLast?_cons_of_ne_nil _ (by simp [encN1])]
  exact encN1_getLast r

theorem encM4_getLast (r : AnalysisResult) : (encM4 r).getLast? = some rbrace := by
  simp only [encM4]
  rw [getLast?_key_val _ _ (by simp)]
  rw [List.getLast?_append_of_ne_nil _ (by simp)]
  rw [getLast?_cons_of_ne_nil _ (by simp [encM5])]
  exact encM5_getLast r

theorem encM3_getLast (r : AnalysisResult) : (encM3 r).getLast? = some rbrace := by
  simp only [encM3]
  rw [getLast?_key_val _ _ (by simp)]
  rw [List.getLast?_append_of_ne_nil _ (by simp)]
  rw [getLast?_cons_of_ne_nil _ (by simp [encM4])]
  exact encM4_getLast r

theorem encM2_getLast (r : AnalysisResult) : (encM2 r).getLast? = some rbrace := by
  simp only [encM2]
  rw [getLast?_key_val _ _ (by simp)]
  rw [List.getLast?_append_of_ne_nil _ (by simp)]
  rw [getLast?_cons_of_ne_nil _ (by simp [encM3])]
  exact encM3_getLast r

theorem encM1_getLast (r : AnalysisResult) : (encM1 r).getLast? = some rbrace := by
  simp only [encM1]
  rw [getLast?_key_val _ _ (by simp)]
  rw [List.getLast?_append_of_ne_nil _ (by simp)]
  rw [getLast?_cons_of_ne_nil _ (by simp [encM2])]
  exact encM2_getLast r

theorem encode_getLast (r : AnalysisResult) :
    (encodeAnalysisResult r).getLast? = some rbrace := by
  rw [show encodeAnalysisResult r = lbrace :: encM1 r from rfl]
  rw [getLast?_cons_of_ne_nil _ (by simp [encM1])]
  exact encM1_getLast r

theorem pyStrip_around_enc (r : AnalysisResult) (a b : List Char) :
    pyStrip (a ++ (encodeAnalysisResult r ++ b)) =
      a.dropWhile isSpaceCh ++
        (encodeAnalysisResult r ++ (b.reverse.dropWhile isSpaceCh).reverse) := by
  have hhead : ∀ c, (encodeAnalysisResult r ++ b).head? = some c →
      isSpaceCh c = false := by
    intro c hc
    rw [show encodeAnalysisResult r ++ b = lbrace :: (encM1 r ++ b) from rfl] at hc
    rw [head?_cons_eq hc]
    decide
  have hrevhead : ∀ c,
      ((encodeAnalysisResult r).reverse ++
        (a.dropWhile isSpaceCh).reverse).head? = some c → isSpaceCh c = false := by
    intro c hc
    have h9 : (encodeAnalysisResult r).reverse.head? = some rbrace := by
      rw [List.head?_reverse]
      exact encode_getLast r
    rw [head?_append_some _ h9] at hc
    injection hc with hc2
    rw [← hc2]
    decide
  unfold pyStrip
  rw [dropWhile_append_head isSpaceCh a (encodeAnalysisResult r ++ b) hhead]
  rw [List.reverse_append, List.reverse_append, List.append_assoc]
  rw [dropWhile_append_head isSpaceCh b.reverse _ hrevhead]
  rw [List.reverse_append, List.reverse_append, List.reverse_reverse,
    List.reverse_reverse, List.append_assoc]

theorem braceSpan_extract (pd sd : List Char) (r : AnalysisResult)
    (hp : ∀ c ∈ pd, ¬(c = lbrace)) (hs : ∀ c ∈ sd, ¬(c = rbrace)) :
    braceSpan (pd ++ (encodeAnalysisResult r ++ sd)) =
      some (encodeAnalysisResult r) := by
  have hbd : ∀ c, (encodeAnalysisResult r ++ sd).head? = some c →
      (!(c = lbrace) : Bool) = false := by
    intro c hc
    rw [show encodeAnalysisResult r ++ sd = lbrace :: (encM1 r ++ sd) from rfl] at hc
    rw [head?_cons_eq hc]
    simp
  have h1 : (pd ++ (encodeAnalysisResult r ++ sd)).dropWhile
        (fun c => !(c = lbrace)) = lbrace :: (encM1 r ++ sd) := by
    rw [dropWhile_append_head _ _ _ hbd]
    rw [dropWhile_eq_nil_of_all _ _ (fun c hc => by simp [hp c hc])]
    rfl
  have hrev : ∀ c, ((encM1 r).reverse ++ [lbrace]).head? = some c →
      (!(c = rbrace) : Bool) = false := by
    intro c hc
    have h9 : (encM1 r).reverse.head? = some rbrace := by
      rw [List.head?_reverse]
      exact encM1_getLast r
    rw [head?_append_some _ h9] at hc
    injection hc with hc2
    rw [← hc2]
    simp
  have h2 : (lbrace :: (encM1 r ++ sd)).reverse.dropWhile
        (fun c => !(c = rbrace)) = (encM1 r).reverse ++ [lbrace] := by
    rw [List.reverse_cons, List.reverse_append, List.append_assoc]
    rw [dropWhile_append_head _ _ _ hrev]
    rw [dropWhile_eq_nil_of_all _ _
      (fun c hc => by simp [hs c (List.mem_reverse.mp hc)])]
    rfl
  unfold braceSpan
  rw [h1]
  dsimp only
  rw [h2]
  obtain ⟨m1, m2, hM⟩ : ∃ x xs, (encM1 r).reverse ++ [lbrace] = x :: xs := by
    cases hE : (encM1 r).reverse ++ [lbrace] with
    | nil => exact absurd hE (by simp)
    | cons x xs => exact ⟨x, xs, rfl⟩
  rw [hM]
  dsimp only
  rw [← hM, List.reverse_append, List.reverse_reverse]
  rfl

theorem strsOf_map (xs : List String) : strsOf (xs.map Json.str) = some xs := by
  induction xs with
  | nil => rfl
  | cons x t ih =>
    show strsOf (Json.str x :: t.map Json.str) = some (x :: t)
    conv_lhs => unfold strsOf
    rw [ih]

theorem jsonToResult_jsonOfResult (r : AnalysisResult) :
    jsonToResult (jsonOfResult r) = some r := by
  have k1 : decide ("ats_score" = "missing_keywords") = false := rfl
  have k2 : decide ("ats_score" = "feedback") = false := rfl
  have k3 : decide ("missing_keywords" = "feedback") = false := rfl
  have k4 : decide ("ats_score" = "extracted_skills") = false := rfl
  have k5 : decide ("missing_keywords" = "extracted_skills") = false := rfl
  have k6 : decide ("feedback" = "extracted_skills") = false := rfl
  have k7 : decide ("ats_score" = "contact_info") = false := rfl
  have k8 : decide ("missing_keywords" = "contact_info") = false := rfl
  have k9 : decide ("feedback" = "contact_info") = false := rfl
  have k10 : decide ("extracted_skills" = "contact_info") = false := rfl
  have k11 : decide ("emails" = "phone_numbers") = false := rfl
  simp [jsonToResult, jsonOfResult, fieldOr, getField, asInt, asStr, asStrList,
    strsOf_map, k1, k2, k3, k4, k5, k6, k7, k8, k9, k10, k11]

/-- C5 (corrected): the round-trip holds only for restricted surrounding
text.  When the prose before the encoded object contains no `{`, the prose
after it contains no `}`, the whole text contains no run of six
consecutive backquotes (the only fence sequence the source strips), and
the result is valid with clean strings, `extract_json_from_response`
recovers exactly the encoded JSON object, and the spec's field coercion
maps that object back to the original `AnalysisResult`.  With arbitrary
surrounding prose the claim fails (see the counterexample): a stray brace
in the prose corrupts the first-`{`-to-last-`}` span. -/
theorem roundtrip_extraction_recovers_result (r : AnalysisResult) (p s : String)
    (hr : cleanResult r)
    (hp : ∀ c ∈ p.data, ¬(c = lbrace))
    (hs : ∀ c ∈ s.data, ¬(c = rbrace))
    (hf : hasSixBackquotes (p ++ String.mk (encodeAnalysisResult r) ++ s).data = false) :
    extract_json_from_response (p ++ String.mk (encodeAnalysisResult r) ++ s) =
      some (jsonOfResult r) ∧
    jsonToResult (jsonOfResult r) = some r := by
  have hdata : (p ++ String.mk (encodeAnalysisResult r) ++ s).data =
      p.data ++ (encodeAnalysisResult r ++ s.data) := by
    simp [String.data_append, List.append_assoc]
  refine ⟨?_, jsonToResult_jsonOfResult r⟩
  rw [hdata] at hf
  show (match braceSpan (pyStrip (stripFences
        (p ++ String.mk (encodeAnalysisResult r) ++ s).data)) with
      | some span => jsonLoads span
      | none => none) = some (jsonOfResult r)
  rw [hdata, stripFences_id _ hf, pyStrip_around_enc r p.data s.data]
  rw [braceSpan_extract _ _ r
    (fun c hc => hp c ((List.dropWhile_sublist _).mem hc))
    (fun c hc => hs c
      (List.mem_reverse.mp ((List.dropWhile_sublist _).mem (List.mem_reverse.mp hc))))]
  exact jsonLoads_encodeResult r hr

/-- C5 counterexample: with genuinely arbitrary surrounding prose the
round-trip fails.  The prose "see \x7bdraft\x7d note " contains a brace, so
the first-`{`-to-last-`}` span starts at the prose's `{` and the spanned
text is not valid JSON: extraction returns `none` even though a perfectly
encoded valid result follows the prose. -/
theorem roundtrip_fails_with_brace_prose_cex :
    cleanResult (⟨72, ["Agile"], "Add metrics.", ["SQL"], ⟨[], []⟩⟩ : AnalysisResult) ∧
    extract_json_from_response
      ("see \x7bdraft\x7d note " ++
        String.mk (encodeAnalysisResult
          ⟨72, ["Agile"], "Add metrics.", ["SQL"], ⟨[], []⟩⟩)) = none :=
  ⟨by unfold cleanResult; decide, by rfl⟩

theorem roundtrip_extraction_recovers_result_witness :
    cleanResult (⟨72, ["Agile"], "Add metrics.", ["SQL"], ⟨[], []⟩⟩ : AnalysisResult) ∧
    (extract_json_from_response
        ("Sure! Here is the JSON:\n" ++
          String.mk (encodeAnalysisResult
            ⟨72, ["Agile"], "Add metrics.", ["SQL"], ⟨[], []⟩⟩) ++
          "\nHope this helps.") =
        some (jsonOfResult ⟨72, ["Agile"], "Add metrics.", ["SQL"], ⟨[], []⟩⟩) ∧
      jsonToResult (jsonOfResult ⟨72, ["Agile"], "Add metrics.", ["SQL"], ⟨[], []⟩⟩) =
        some ⟨72, ["Agile"], "Add metrics.", ["SQL"], ⟨[], []⟩⟩) :=
  ⟨by unfold cleanResult; decide,
   roundtrip_extraction_recovers_result
     ⟨72, ["Agile"], "Add metrics.", ["SQL"], ⟨[], []⟩⟩
     "Sure! Here is the JSON:\n" "\nHope this helps."
     (by unfold cleanResult; decide) (by decide) (by decide) (by decide)⟩

end ResumeScreener
